import Mathlib

/-!
# Verification of the recursive query decomposition / plan composition engine

Shallow embedding of the Python backend of this repository
(`backend/pricing.py`, `backend/models.py`, `backend/recomposer.py`,
`backend/query_decomposer.py`, `backend/orchestrator.py`) and proofs of the
specification claims about it.

Conventions of the embedding:
* Python `float` values (weights, scores, prices before rounding) are modelled
  as rationals `ℚ`; Python `int` as `ℤ` or `ℕ`.
* Mathlib marks the field operations of `ℚ` irreducible, which blocks kernel
  evaluation of concrete runs; the embedding therefore uses the computable
  wrappers `qadd`, `qsub`, `qmul`, `qdiv`, `qsum` below, each proved equal to
  the corresponding field operation (`qadd_eq` …), and writes rational
  constants with `mkRat`.
* Python dicts with string keys (the node map of a DAG, the in-degree table of
  Kahn's algorithm) are modelled as lists in insertion order; the code only
  ever stores distinct keys in them.
* Operations that can raise in Python (`dict[k]` on a missing key,
  `list.remove` on a missing element, attribute access on a missing attribute)
  are modelled in the `Except String` monad, so "never raises" is a provable
  statement.
* External collaborators (Elasticsearch hybrid search, the Claude scoring and
  decomposition oracle, the embedding service) are abstracted as function
  parameters, exactly at the call boundary the Python code uses.
-/

/-! ## Computable rational arithmetic -/

/-- Computable addition on `ℚ` (equal to `+`, see `qadd_eq`). -/
def qadd (a b : ℚ) : ℚ := mkRat (a.num * b.den + b.num * a.den) (a.den * b.den)

/-- Computable subtraction on `ℚ` (equal to `-`, see `qsub_eq`). -/
def qsub (a b : ℚ) : ℚ := mkRat (a.num * b.den - b.num * a.den) (a.den * b.den)

/-- Computable multiplication on `ℚ` (equal to `*`, see `qmul_eq`). -/
def qmul (a b : ℚ) : ℚ := mkRat (a.num * b.num) (a.den * b.den)

/-- Computable division on `ℚ` (equal to `/`, division by zero yields zero,
see `qdiv_eq`). -/
def qdiv (a b : ℚ) : ℚ :=
  if 0 ≤ b.num then mkRat (a.num * b.den) (a.den * b.num.toNat)
  else mkRat (-(a.num * (b.den : ℤ))) (a.den * (-b.num).toNat)

/-- Computable left-fold sum on `ℚ`, the shape of Python `sum(...)`
(equal to `List.sum`, see `qsum_eq`). -/
def qsum (l : List ℚ) : ℚ := l.foldl qadd 0

theorem mkRat_eq_div (n : ℤ) (d : ℕ) : mkRat n d = (n : ℚ) / (d : ℚ) := by
  rw [Rat.mkRat_eq_divInt, Rat.divInt_eq_div]
  norm_cast

theorem qadd_eq (a b : ℚ) : qadd a b = a + b := by
  have ha : ((a.den : ℚ)) ≠ 0 := by exact_mod_cast a.den_nz
  have hb : ((b.den : ℚ)) ≠ 0 := by exact_mod_cast b.den_nz
  rw [qadd, mkRat_eq_div]
  conv_rhs => rw [← Rat.num_div_den a, ← Rat.num_div_den b]
  push_cast
  field_simp

theorem qsub_eq (a b : ℚ) : qsub a b = a - b := by
  have ha : ((a.den : ℚ)) ≠ 0 := by exact_mod_cast a.den_nz
  have hb : ((b.den : ℚ)) ≠ 0 := by exact_mod_cast b.den_nz
  rw [qsub, mkRat_eq_div]
  conv_rhs => rw [← Rat.num_div_den a, ← Rat.num_div_den b]
  push_cast
  field_simp
  ring

theorem qmul_eq (a b : ℚ) : qmul a b = a * b := by
  have ha : ((a.den : ℚ)) ≠ 0 := by exact_mod_cast a.den_nz
  have hb : ((b.den : ℚ)) ≠ 0 := by exact_mod_cast b.den_nz
  rw [qmul, mkRat_eq_div]
  conv_rhs => rw [← Rat.num_div_den a, ← Rat.num_div_den b]
  push_cast
  field_simp

theorem qdiv_eq (a b : ℚ) : qdiv a b = a / b := by
  by_cases hb : b = 0
  · subst hb
    simp [qdiv, Rat.mkRat_zero]
  · have hnum : b.num ≠ 0 := Rat.num_ne_zero.mpr hb
    have ha : ((a.den : ℚ)) ≠ 0 := by exact_mod_cast a.den_nz
    have hbd : ((b.den : ℚ)) ≠ 0 := by exact_mod_cast b.den_nz
    have hbq : ((b.num : ℚ)) ≠ 0 := by exact_mod_cast hnum
    rcases le_or_lt 0 b.num with h | h
    · rw [qdiv, if_pos h, mkRat_eq_div]
      have htn : ((b.num.toNat : ℕ) : ℚ) = (b.num : ℚ) := by
        exact_mod_cast congrArg (fun z : ℤ => (z : ℚ)) (Int.toNat_of_nonneg h)
      conv_rhs => rw [← Rat.num_div_den a, ← Rat.num_div_den b]
      push_cast
      rw [htn]
      field_simp
    · rw [qdiv, if_neg (not_le.mpr h), mkRat_eq_div]
      have htn : (((-b.num).toNat : ℕ) : ℚ) = -(b.num : ℚ) := by
        exact_mod_cast congrArg (fun z : ℤ => (z : ℚ)) (Int.toNat_of_nonneg (neg_nonneg.mpr h.le))
      conv_rhs => rw [← Rat.num_div_den a, ← Rat.num_div_den b]
      push_cast
      rw [htn]
      field_simp

theorem qsum_eq (l : List ℚ) : qsum l = l.sum := by
  suffices h : ∀ a : ℚ, l.foldl qadd a = a + l.sum by
    simpa [qsum] using h 0
  induction l with
  | nil => simp
  | cons x xs ih => intro a; simp [List.foldl_cons, qadd_eq, ih, add_assoc]

theorem ratFloor_eq_intFloor (q : ℚ) : q.floor = ⌊q⌋ :=
  le_antisymm (Int.le_floor.mpr (Rat.le_floor.mp le_rfl))
    (Rat.le_floor.mpr (Int.floor_le q))

theorem half_mkRat : mkRat 1 2 = (1 : ℚ) / 2 := by
  rw [mkRat_eq_div]
  norm_num

/-! ## Python primitives -/

/-- Python builtin `round` on a real value: round half to even
(banker's rounding), as used by `pricing.py` via `int(round(x))`. -/
def pyRound (q : ℚ) : ℤ :=
  let f := q.floor
  let r := qsub q (f : ℚ)
  if r < mkRat 1 2 then f
  else if mkRat 1 2 < r then f + 1
  else if f % 2 = 0 then f else f + 1

/-- Stable ascending insertion of an integer into a sorted list
(used to model Python `sorted` for `statistics.median`). -/
def insAsc (x : ℤ) : List ℤ → List ℤ
  | [] => [x]
  | y :: ys => if y ≤ x then y :: insAsc x ys else x :: y :: ys

/-- Python `sorted` on a list of ints (stable, ascending). -/
def pySortedAsc (l : List ℤ) : List ℤ := l.foldl (fun acc x => insAsc x acc) []

/-- Stable insertion for a descending sort by a rational key: the new element
goes after every already-placed element whose key is ≥ its own.  This is the
behaviour of Python `list.sort(key=…, reverse=True)`, which is stable. -/
def insDesc {α : Type} (key : α → ℚ) (x : α) : List α → List α
  | [] => [x]
  | y :: ys => if key x ≤ key y then y :: insDesc key x ys else x :: y :: ys

/-- Python stable descending sort by a rational key. -/
def sortDesc {α : Type} (key : α → ℚ) (l : List α) : List α :=
  l.foldl (fun acc x => insDesc key x acc) []

/-- Python `list.remove`: removes the first occurrence, raises `ValueError`
when the element is absent. -/
def pyListRemove (x : String) : List String → Except String (List String)
  | [] => .error "ValueError"
  | y :: ys =>
    if y = x then .ok ys
    else do
      let r ← pyListRemove x ys
      .ok (y :: r)

theorem pyRound_le (q : ℚ) : (pyRound q : ℚ) ≤ q + 1/2 := by
  unfold pyRound
  dsimp only
  rw [qsub_eq, ratFloor_eq_intFloor, half_mkRat]
  have hfl : (⌊q⌋ : ℚ) ≤ q := Int.floor_le q
  have hfu : q < (⌊q⌋ : ℚ) + 1 := Int.lt_floor_add_one q
  split_ifs with h1 h2 h3 <;> push_cast <;> linarith

theorem le_pyRound (q : ℚ) : q - 1/2 ≤ (pyRound q : ℚ) := by
  unfold pyRound
  dsimp only
  rw [qsub_eq, ratFloor_eq_intFloor, half_mkRat]
  have hfl : (⌊q⌋ : ℚ) ≤ q := Int.floor_le q
  have hfu : q < (⌊q⌋ : ℚ) + 1 := Int.lt_floor_add_one q
  split_ifs with h1 h2 h3 <;> push_cast <;> linarith

theorem mem_insAsc {x y : ℤ} {l : List ℤ} :
    y ∈ insAsc x l ↔ y = x ∨ y ∈ l := by
  induction l with
  | nil => simp [insAsc]
  | cons z zs ih =>
    by_cases h : z ≤ x
    · simp only [insAsc, if_pos h, List.mem_cons, ih]
      tauto
    · simp [insAsc, h]

theorem mem_pySortedAsc {y : ℤ} {l : List ℤ} :
    y ∈ pySortedAsc l ↔ y ∈ l := by
  suffices h : ∀ acc, y ∈ l.foldl (fun acc x => insAsc x acc) acc ↔ y ∈ acc ∨ y ∈ l by
    have := h []
    simpa [pySortedAsc] using this
  induction l with
  | nil => intro acc; simp
  | cons z zs ih =>
    intro acc
    simp only [List.foldl_cons, ih, mem_insAsc, List.mem_cons]
    tauto

theorem getD_pySortedAsc_nonneg {l : List ℤ} (h : ∀ p ∈ l, 0 ≤ p) (i : ℕ) :
    (0:ℤ) ≤ (pySortedAsc l).getD i 0 := by
  rcases Nat.lt_or_ge i (pySortedAsc l).length with hi | hi
  · rw [List.getD_eq_getElem _ _ hi]
    exact h _ (mem_pySortedAsc.mp (List.getElem_mem hi))
  · rw [List.getD_eq_default _ _ hi]

/-! ## PricingEngine (`backend/pricing.py`) -/

namespace PricingEngine

def MIN_PRICE : ℤ := 50
def MAX_PRICE : ℤ := 2000
def BASE_PERCENTAGE : ℚ := mkRat 15 100
def MARKET_VARIANCE_ALLOWED : ℚ := mkRat 30 100

/-- `calculate_quality_multiplier`: `0.7 + (rating/5.0) * 0.6`. -/
def calculate_quality_multiplier (rating : ℚ) : ℚ :=
  qadd (mkRat 7 10) (qmul (qdiv rating 5) (mkRat 6 10))

/-- `calculate_base_price`: `int(round(tokens_saved * 0.15 * quality_multiplier))`. -/
def calculate_base_price (tokens_saved : ℤ) (rating : ℚ) : ℤ :=
  pyRound (qmul (qmul (tokens_saved : ℚ) BASE_PERCENTAGE) (calculate_quality_multiplier rating))

/-- `constrain_price`: `max(MIN_PRICE, min(price, MAX_PRICE))`. -/
def constrain_price (price : ℤ) : ℤ :=
  max MIN_PRICE (min price MAX_PRICE)

/-- `statistics.median` of a list of ints: sort ascending; for odd length the
middle element, for even length the mean of the two middle elements. -/
def pyMedian (l : List ℤ) : ℚ :=
  let s := pySortedAsc l
  let n := s.length
  if n % 2 = 1 then ((s.getD (n / 2) 0 : ℤ) : ℚ)
  else qdiv (((s.getD (n / 2 - 1) 0 + s.getD (n / 2) 0 : ℤ) : ℚ)) 2

/-- `calculate_market_rate`: `None` for an empty list, else the median. -/
def calculate_market_rate (comparable_prices : List ℤ) : Option ℚ :=
  if comparable_prices = [] then none else some (pyMedian comparable_prices)

/-- `apply_market_constraint`: clamp the price into
`[market_rate*0.7, market_rate*1.3]` (identity when no market rate), then
`int(round(...))`. -/
def apply_market_constraint (price : ℤ) (market_rate : Option ℚ) : ℤ :=
  match market_rate with
  | none => price
  | some m =>
    let min_market := qmul m (qsub 1 MARKET_VARIANCE_ALLOWED)
    let max_market := qmul m (qadd 1 MARKET_VARIANCE_ALLOWED)
    pyRound (max min_market (min (price : ℚ) max_market))

/-- The pricing breakdown dict returned by `calculate_workflow_price`
(the string field `breakdown` is omitted; it is presentation only). -/
structure PriceBreakdown where
  tokens_saved : ℤ
  base_price : ℤ
  quality_multiplier : ℚ
  constrained_price : ℤ
  market_rate : Option ℚ
  final_price : ℤ
  roi_percentage : ℚ
  deriving Repr, DecidableEq

/-- `calculate_workflow_price`.  Note: the code applies the absolute
`[MIN_PRICE, MAX_PRICE]` clamp *before* the market constraint and never
re-clamps afterwards. -/
def calculate_workflow_price (avg_tokens_without avg_tokens_with : ℤ)
    (rating : ℚ) (comparable_prices : List ℤ) : PriceBreakdown :=
  let tokens_saved := avg_tokens_without - avg_tokens_with
  let quality_multiplier := calculate_quality_multiplier rating
  let base_price := calculate_base_price tokens_saved rating
  let constrained_price := constrain_price base_price
  let market_rate := calculate_market_rate comparable_prices
  let final_price := apply_market_constraint constrained_price market_rate
  let roi_percentage :=
    if 0 < final_price then qmul (qdiv (tokens_saved : ℚ) (final_price : ℚ)) 100 else 0
  { tokens_saved := tokens_saved
    base_price := base_price
    quality_multiplier := quality_multiplier
    constrained_price := constrained_price
    market_rate := market_rate
    final_price := final_price
    roi_percentage := roi_percentage }

end PricingEngine

/-! ### Facts about `pyMedian` and the price clamps (claim C6) -/

theorem pyMedian_nonneg {l : List ℤ} (h : ∀ p ∈ l, 0 ≤ p) : 0 ≤ PricingEngine.pyMedian l := by
  have hs := getD_pySortedAsc_nonneg h
  unfold PricingEngine.pyMedian
  dsimp only
  rw [qdiv_eq]
  split_ifs
  · exact_mod_cast hs _
  · have h1 := hs ((pySortedAsc l).length / 2 - 1)
    have h2 := hs ((pySortedAsc l).length / 2)
    have : (0:ℚ) ≤ ((pySortedAsc l).getD ((pySortedAsc l).length / 2 - 1) 0 +
        (pySortedAsc l).getD ((pySortedAsc l).length / 2) 0 : ℤ) := by
      exact_mod_cast add_nonneg h1 h2
    positivity

/-- The market-band bound that the code actually guarantees: the final price is
the banker-rounded clamp into `[median*0.7, median*1.3]`, hence within half a
token of that band. -/
theorem final_price_market_band {p : ℤ} {m : ℚ} (hm : 0 ≤ m) :
    m * (7/10) - 1/2 ≤ (PricingEngine.apply_market_constraint p (some m) : ℚ) ∧
    (PricingEngine.apply_market_constraint p (some m) : ℚ) ≤ m * (13/10) + 1/2 := by
  unfold PricingEngine.apply_market_constraint
  dsimp only
  rw [qmul_eq, qmul_eq, qsub_eq, qadd_eq]
  have hvar : PricingEngine.MARKET_VARIANCE_ALLOWED = 3/10 := by
    rw [PricingEngine.MARKET_VARIANCE_ALLOWED, mkRat_eq_div]
    norm_num
  rw [hvar]
  set y := max (m * (1 - 3/10)) (min ((p : ℤ) : ℚ) (m * (1 + 3/10))) with hy
  have hlo : m * (1 - 3/10) ≤ y := le_max_left _ _
  have hhi : y ≤ m * (1 + 3/10) := by
    apply max_le
    · nlinarith
    · exact min_le_right _ _
  have h1 := le_pyRound y
  have h2 := pyRound_le y
  constructor <;> nlinarith

/-- C6 (amended). For all `tokens_saved ≥ 0` and `rating ∈ [0,5]` (and
nonnegative comparable prices): with no comparables the final price is clamped
into the absolute bounds `[50, 2000]`; with a non-empty comparables list the
final price lies within the market band `[median*0.7, median*1.3]` up to the
half-token slack introduced by `int(round(...))` — but it is **not** re-clamped
to the absolute `[50, 2000]` bounds afterwards (pricing.py applies the absolute
clamp before the market constraint only). -/
theorem claim_C6 (avg_without avg_with : ℤ) (rating : ℚ) (comps : List ℤ)
    (htok : 0 ≤ avg_without - avg_with) (hr0 : 0 ≤ rating) (hr5 : rating ≤ 5)
    (hc : ∀ p ∈ comps, 0 ≤ p) :
    (comps = [] →
      50 ≤ (PricingEngine.calculate_workflow_price avg_without avg_with rating comps).final_price ∧
      (PricingEngine.calculate_workflow_price avg_without avg_with rating comps).final_price ≤ 2000) ∧
    (comps ≠ [] →
      PricingEngine.pyMedian comps * (7/10) - 1/2 ≤
        ((PricingEngine.calculate_workflow_price avg_without avg_with rating comps).final_price : ℚ) ∧
      ((PricingEngine.calculate_workflow_price avg_without avg_with rating comps).final_price : ℚ) ≤
        PricingEngine.pyMedian comps * (13/10) + 1/2) := by
  unfold PricingEngine.calculate_workflow_price
  dsimp only
  constructor
  · intro hempty
    subst hempty
    simp only [PricingEngine.calculate_market_rate, if_pos rfl,
      PricingEngine.apply_market_constraint, PricingEngine.constrain_price]
    constructor
    · exact le_max_left _ _
    · exact max_le (by norm_num [PricingEngine.MIN_PRICE, PricingEngine.MAX_PRICE])
        (le_trans (min_le_right _ _) (by norm_num [PricingEngine.MAX_PRICE]))
  · intro hne
    have hmr : PricingEngine.calculate_market_rate comps = some (PricingEngine.pyMedian comps) := by
      simp [PricingEngine.calculate_market_rate, hne]
    rw [hmr]
    exact final_price_market_band (pyMedian_nonneg hc)

/-- Witness for C6 (amended) at concrete inputs (both the empty- and the
non-empty-comparables branch). -/
theorem claim_C6_witness :
    (50 ≤ (PricingEngine.calculate_workflow_price 10000 2000 4 []).final_price ∧
      (PricingEngine.calculate_workflow_price 10000 2000 4 []).final_price ≤ 2000) ∧
    (PricingEngine.pyMedian [100, 200, 300] * (7/10) - 1/2 ≤
        ((PricingEngine.calculate_workflow_price 10000 2000 4 [100, 200, 300]).final_price : ℚ) ∧
      ((PricingEngine.calculate_workflow_price 10000 2000 4 [100, 200, 300]).final_price : ℚ) ≤
        PricingEngine.pyMedian [100, 200, 300] * (13/10) + 1/2) :=
  ⟨(claim_C6 10000 2000 4 [] (by norm_num) (by norm_num) (by norm_num)
      (by intro p hp; cases hp)).1 rfl,
   (claim_C6 10000 2000 4 [100, 200, 300] (by norm_num) (by norm_num) (by norm_num)
      (by decide)).2 (by decide)⟩

/-- Counterexample to C6 as stated: with `tokens_saved = 0 ≥ 0`,
`rating = 0 ∈ [0,5]` and the non-empty comparables list `[10000]`
(median 10000), the final price is 7000, outside the claimed absolute range
`[50, 2000]` — the market clamp is **not** followed by a re-clamp to the
absolute bounds. -/
theorem claim_C6_counterexample :
    (0:ℤ) ≤ 0 - 0 ∧ (0:ℚ) ≤ 0 ∧ (0:ℚ) ≤ 5 ∧ ([10000] : List ℤ) ≠ [] ∧
    (PricingEngine.calculate_workflow_price 0 0 0 [10000]).final_price = 7000 ∧
    ¬ (PricingEngine.calculate_workflow_price 0 0 0 [10000]).final_price ≤ 2000 := by
  refine ⟨by norm_num, by norm_num, by norm_num, by simp, by decide, by decide⟩

/-! ## Data model (`backend/models.py`)

Only the fields that the embedded functions read are carried; the remaining
metadata fields of `models.py` (tags, steps, edge cases, …) never influence
the recomposer, decomposer or pricing control flow. -/

structure Workflow where
  workflow_id : String
  title : String
  description : String
  task_type : String
  download_cost : ℤ
  execution_cost : ℤ
  rating : ℚ := 0
  embedding : Option (List ℚ) := none
  similarity_score : ℚ := 0
  deriving Repr, DecidableEq, Inhabited

/-- `Workflow.total_cost`: `download_cost + execution_cost`. -/
def Workflow.total_cost (w : Workflow) : ℤ := w.download_cost + w.execution_cost

structure Subtask where
  text : String
  task_type : String
  weight : ℚ
  rationale : String := ""
  deriving Repr, DecidableEq, Inhabited

/-- A node of the execution DAG (`models.py` `SubtaskNode`). -/
structure SubtaskNode where
  id : String
  description : String
  workflow : Workflow
  dependencies : List String := []
  children : List String := []
  weight : ℚ := 1
  confidence_score : ℚ := 0
  deriving Repr, DecidableEq, Inhabited

namespace SubtaskNode

def workflow_id (n : SubtaskNode) : String := n.workflow.workflow_id

def task_type (n : SubtaskNode) : String := n.workflow.task_type

def download_cost (n : SubtaskNode) : ℤ := n.workflow.download_cost

def execution_cost (n : SubtaskNode) : ℤ := n.workflow.execution_cost

/-- Alias for `download_cost` (backward-compatibility property in models.py). -/
def token_cost (n : SubtaskNode) : ℤ := n.download_cost

/-- Alias for `execution_cost` (backward-compatibility property in models.py). -/
def execution_tokens (n : SubtaskNode) : ℤ := n.execution_cost

def total_cost (n : SubtaskNode) : ℤ := n.download_cost + n.execution_cost

end SubtaskNode

/-- `models.py` `ExecutionDAG`; `nodes` is the id-keyed dict in insertion
order. -/
structure ExecutionDAG where
  nodes : List SubtaskNode
  root_ids : List String
  execution_order : List String
  total_download_cost : ℤ
  total_execution_cost : ℤ
  coverage : String
  overall_confidence : ℚ
  deriving Repr, DecidableEq, Inhabited

def ExecutionDAG.total_cost (d : ExecutionDAG) : ℤ :=
  d.total_download_cost + d.total_execution_cost

/-- `models.py` `SearchPlan`; the `subtask_workflow_mapping` int-keyed dict is
a list of `(subtask index, workflow index)` pairs in insertion order. -/
structure SearchPlan where
  plan_type : String
  workflows : List Workflow
  overall_score : ℚ
  subtasks : List Subtask := []
  subtask_workflow_mapping : List (ℕ × ℕ) := []
  coverage : String := ""
  deriving Repr, DecidableEq, Inhabited

def SearchPlan.is_composite (p : SearchPlan) : Bool := p.plan_type == "composite"

/-- `models.py` `SearchResult`. -/
structure SearchResult where
  workflow : Workflow
  score : ℚ
  source : String := "direct"
  deriving Repr, DecidableEq, Inhabited

/-! ## WorkflowRecomposer (`backend/recomposer.py`) -/

namespace WorkflowRecomposer

/-- `dict[id]` lookup in the node map (first match; ids are unique in every
map the recomposer builds). -/
def findNode? (nodes : List SubtaskNode) (nid : String) : Option SubtaskNode :=
  nodes.find? (fun n => n.id == nid)

/-- `dict[id]` lookup that raises `KeyError` when absent. -/
def findNodeE (nodes : List SubtaskNode) (nid : String) : Except String SubtaskNode :=
  match findNode? nodes nid with
  | some n => .ok n
  | none => .error "KeyError"

/-- Weight of the node named by a sort key; every id handed to a sort key
names a node of the map. -/
def nodeWeight (nodes : List SubtaskNode) (nid : String) : ℚ :=
  ((findNode? nodes nid).map (fun n => n.weight)).getD 0

/-- In-place mutation of the (unique) node with the given id. -/
def updateNode (nodes : List SubtaskNode) (nid : String)
    (f : SubtaskNode → SubtaskNode) : List SubtaskNode :=
  nodes.map (fun n => if n.id == nid then f n else n)

def nodeIds (nodes : List SubtaskNode) : List String := nodes.map (fun n => n.id)

/-- `list[i]` indexing that raises `IndexError` when out of range. -/
def listGetE {α : Type} (l : List α) (i : ℕ) : Except String α :=
  match l[i]? with
  | some x => .ok x
  | none => .error "IndexError"

/-- `TASK_PRECEDENCE` table of `_infer_dependencies` (default 6). -/
def TASK_PRECEDENCE (t : String) : ℕ :=
  if t = "data_gathering" then 1
  else if t = "validation" then 2
  else if t = "requirements" then 3
  else if t = "computation" then 4
  else if t = "tax_filing" then 5
  else if t = "filing" then 5
  else if t = "general" then 6
  else 6

/-- One `(node i, potential parent j)` step of `_infer_dependencies`:
rule 1 (task-type precedence), guarded by `continue`; else rule 2
(weight dominance beyond 0.15). -/
def inferPair (nodes : List SubtaskNode) (i j : ℕ) : List SubtaskNode :=
  match nodes[i]?, nodes[j]? with
  | some node, some parent =>
    let node_priority := TASK_PRECEDENCE node.task_type
    let parent_priority := TASK_PRECEDENCE parent.task_type
    if parent_priority < node_priority then
      if parent.id ∈ node.dependencies then nodes
      else
        (nodes.set i { node with dependencies := node.dependencies ++ [parent.id] }).set j
          { parent with children := parent.children ++ [node.id] }
    else if mkRat 15 100 < qsub parent.weight node.weight then
      if parent.id ∈ node.dependencies then nodes
      else
        (nodes.set i { node with dependencies := node.dependencies ++ [parent.id] }).set j
          { parent with children := parent.children ++ [node.id] }
    else nodes
  | _, _ => nodes

/-- `_infer_dependencies`: all ordered pairs `(i, j)`, `j ≠ i`, in iteration
order.  (The Python signature also receives the subtask list but never reads
it.) -/
def inferDependencies (nodes : List SubtaskNode) : List SubtaskNode :=
  let n := nodes.length
  (List.range n).foldl (fun acc i =>
    (List.range n).foldl (fun acc2 j =>
      if i = j then acc2 else inferPair acc2 i j) acc) nodes

/-- `in_degree[k]` lookup (KeyError when absent). -/
def alook (m : List (String × ℤ)) (k : String) : Except String ℤ :=
  match m.find? (fun p => p.1 == k) with
  | some p => .ok p.2
  | none => .error "KeyError"

/-- `in_degree[k] = v` update of an existing key. -/
def aupd (m : List (String × ℤ)) (k : String) (v : ℤ) : List (String × ℤ) :=
  m.map (fun p => if p.1 == k then (p.1, v) else p)

/-- The inner `for child_id in nodes[node_id].children` loop of Kahn's
algorithm: decrement each child's in-degree, enqueue those that reach 0. -/
def kahnStepChildren (inDeg : List (String × ℤ)) (childrenList : List String) :
    Except String (List (String × ℤ) × List String) :=
  childrenList.foldlM (fun st c => do
    let d ← alook st.1 c
    let st1 := aupd st.1 c (d - 1)
    pure (st1, if d - 1 = 0 then st.2 ++ [c] else st.2)) (inDeg, ([] : List String))

/-- The `while queue:` loop of Kahn's algorithm.  Each iteration sorts the
queue by descending weight (stable), pops the head, appends it to the order
and processes its children.  `fuel` only bounds the recursion; it is chosen
large enough by `kahnRun` that it can never be exhausted (each iteration pops
one element and the number of enqueues is at most `n + Σ |children|`). -/
def kahnLoop (nodes : List SubtaskNode) :
    ℕ → List (String × ℤ) → List String → List String →
    Except String (List String × List String × List (String × ℤ))
  | 0, inDeg, queue, sorted => .ok (sorted, queue, inDeg)
  | fuel+1, inDeg, queue, sorted =>
    match sortDesc (nodeWeight nodes) queue with
    | [] => .ok (sorted, [], inDeg)
    | h :: rest => do
      let node ← findNodeE nodes h
      let r ← kahnStepChildren inDeg node.children
      kahnLoop nodes fuel r.1 (rest ++ r.2) (sorted ++ [h])

def totalChildren (nodes : List SubtaskNode) : ℕ :=
  (nodes.map (fun n => n.children.length)).sum

/-- One full run of Kahn's algorithm over the current node map, returning the
(possibly partial) sorted order. -/
def kahnRun (nodes : List SubtaskNode) : Except String (List String) := do
  let inDeg := nodes.map (fun n => (n.id, (n.dependencies.length : ℤ)))
  let queue := (nodes.filter (fun n => n.dependencies.isEmpty)).map (fun n => n.id)
  let r ← kahnLoop nodes (nodes.length + totalChildren nodes + 1) inDeg queue []
  .ok r.1

/-- Edge strength of `_find_weakest_edge_in_cycle`:
`(parent.weight - child.weight) + parent.weight * 0.1`. -/
def edgeStrength (parent child : SubtaskNode) : ℚ :=
  qadd (qsub parent.weight child.weight) (qmul parent.weight (mkRat 1 10))

/-- `_find_weakest_edge_in_cycle`: scan every dependency edge into a cycle
node (skipping parents absent from the map) and keep the strictly smallest
strength, first encountered wins. -/
def findWeakestEdgeInCycle (nodes : List SubtaskNode) (cycleNodes : List String) :
    Except String (Option (String × String)) := do
  let r ← cycleNodes.foldlM (fun (acc : Option ((String × String) × ℚ)) childId => do
    let child ← findNodeE nodes childId
    pure (child.dependencies.foldl (fun acc2 parentId =>
      match findNode? nodes parentId with
      | none => acc2
      | some parent =>
        let strength := edgeStrength parent child
        match acc2 with
        | none => some ((parentId, childId), strength)
        | some (_, minS) =>
          if strength < minS then some ((parentId, childId), strength) else acc2) acc))
    none
  .ok (r.map (fun p => p.1))

/-- Removal of the weakest edge: `dependencies.remove(parent)` on the child,
then `children.remove(child)` on the parent (each a `ValueError` when the
element is absent). -/
def removeEdgeE (nodes : List SubtaskNode) (parentId childId : String) :
    Except String (List SubtaskNode) := do
  let child ← findNodeE nodes childId
  let newDeps ← pyListRemove parentId child.dependencies
  let nodes1 := updateNode nodes childId (fun n => { n with dependencies := newDeps })
  let parent ← findNodeE nodes1 parentId
  let newCh ← pyListRemove childId parent.children
  .ok (updateNode nodes1 parentId (fun n => { n with children := newCh }))

/-- The `break` branch of the repair loop: clear dependencies and children of
every cycle node. -/
def clearCycleEdges (nodes : List SubtaskNode) (cycleNodes : List String) :
    List SubtaskNode :=
  nodes.map (fun n =>
    if cycleNodes.contains n.id then { n with dependencies := [], children := [] } else n)

/-- The `while attempt < max_attempts` repair loop of `_topological_sort`:
run Kahn, return the order when complete, otherwise remove the weakest edge
and retry (at most 5 removals); when no edge is found, clear all cycle edges
and break.  Returns the mutated node map and the order when one was found
inside the loop. -/
def topoAttempts (nodes : List SubtaskNode) :
    ℕ → Except String (List SubtaskNode × Option (List String))
  | 0 => .ok (nodes, none)
  | k+1 => do
    let sorted ← kahnRun nodes
    if sorted.length = nodes.length then .ok (nodes, some sorted)
    else
      let cycleNodes := (nodeIds nodes).filter (fun nid => ¬ sorted.contains nid)
      let we ← findWeakestEdgeInCycle nodes cycleNodes
      match we with
      | some pc => do
        let nodes2 ← removeEdgeE nodes pc.1 pc.2
        topoAttempts nodes2 k
      | none => .ok (clearCycleEdges nodes cycleNodes, none)

/-- `_topological_sort` (returns the mutated node map together with the
execution order): repair loop, then a final Kahn pass, then the pure
descending-weight fallback when cycles still remain. -/
def topological_sort (nodes : List SubtaskNode) :
    Except String (List SubtaskNode × List String) := do
  let r ← topoAttempts nodes 5
  match r.2 with
  | some sorted => .ok (r.1, sorted)
  | none => do
    let sorted ← kahnRun r.1
    if sorted.length = r.1.length then .ok (r.1, sorted)
    else .ok (r.1, sortDesc (nodeWeight r.1) (nodeIds r.1))

/-- The download-cost loop shared by the DAG builders: charge `token_cost`
once per unique `workflow_id` (first occurrence). -/
def dedupDownloadCost (nodes : List SubtaskNode) : ℤ :=
  (nodes.foldl (fun (st : List String × ℤ) node =>
    if st.1.contains node.workflow_id then st
    else (st.1 ++ [node.workflow_id], st.2 + node.token_cost)) (([] : List String), (0:ℤ))).2

/-- `sum(node.execution_tokens for node in nodes.values())`. -/
def totalExecutionCost (nodes : List SubtaskNode) : ℤ :=
  (nodes.map (fun n => n.execution_tokens)).sum

/-- The confidence computation shared by the DAG builders.
(Python would raise `ZeroDivisionError` on a non-empty map of zero total
weight; `qdiv` returns 0 there.  Subtask weights are positive throughout.) -/
def overallConfidence (nodes : List SubtaskNode) : ℚ :=
  if nodes.isEmpty then 0
  else qdiv (qsum (nodes.map (fun n => qmul n.confidence_score n.weight)))
    (qsum (nodes.map (fun n => n.weight)))

/-- `_create_dag_from_composite`. -/
def createDagFromComposite (sp : SearchPlan) : Except String (Option ExecutionDAG) :=
  if sp.subtasks.isEmpty || sp.subtask_workflow_mapping.isEmpty then .ok none
  else do
    let nodes ← sp.subtask_workflow_mapping.foldlM (fun acc (pr : ℕ × ℕ) => do
      let subtask ← listGetE sp.subtasks pr.1
      let workflow ← listGetE sp.workflows pr.2
      let subtask_id := "subtask_" ++ toString pr.1
      let node : SubtaskNode :=
        { id := subtask_id
          description := subtask.text
          workflow := workflow
          weight := subtask.weight
          confidence_score := workflow.similarity_score }
      pure (acc ++ [node])) ([] : List SubtaskNode)
    let nodes := inferDependencies nodes
    let r ← topological_sort nodes
    let ns := r.1
    let root_ids := (ns.filter (fun n => n.dependencies.isEmpty)).map (fun n => n.id)
    let coverage := if sp.coverage = "" then
        toString ns.length ++ "/" ++ toString sp.subtasks.length
      else sp.coverage
    .ok (some
      { nodes := ns
        root_ids := root_ids
        execution_order := r.2
        total_download_cost := dedupDownloadCost ns
        total_execution_cost := totalExecutionCost ns
        coverage := coverage
        overall_confidence := overallConfidence ns })

/-- `_create_single_workflow_dag_from_plan`. -/
def createSingleWorkflowDagFromPlan (sp : SearchPlan) : Option ExecutionDAG :=
  match sp.workflows with
  | [] => none
  | best :: _ =>
    let node : SubtaskNode :=
      { id := "subtask_0"
        description := "Complete workflow"
        workflow := best
        weight := 1
        confidence_score := best.similarity_score }
    some
      { nodes := [node]
        root_ids := ["subtask_0"]
        execution_order := ["subtask_0"]
        total_download_cost := node.token_cost
        total_execution_cost := node.execution_tokens
        coverage := "1/1"
        overall_confidence := node.confidence_score }

/-- `_match_subtasks_to_workflows_from_pool`, with the embedding service
abstracted as `cos text emb` = `cosine_similarity(embed(text), emb)`. -/
def matchSubtasksToWorkflowsFromPool (cos : String → List ℚ → ℚ)
    (subtasks : List Subtask) (workflows : List Workflow) :
    List (ℕ × Subtask × Workflow) :=
  subtasks.enum.foldl (fun acc (pr : ℕ × Subtask) =>
    let subtask := pr.2
    let best := workflows.foldl (fun (st : Option Workflow × ℚ) workflow =>
      let score := match workflow.embedding with
        | some emb => cos subtask.text emb
        | none => workflow.similarity_score
      let score := if workflow.task_type == subtask.task_type then qmul score (mkRat 12 10)
        else score
      if st.2 < score then (some workflow, score) else st) (none, -1)
    match best.1 with
    | some workflow => acc ++ [(pr.1, subtask, workflow)]
    | none => acc) []

/-- `_create_multi_workflow_dag_from_plan`. -/
def createMultiWorkflowDagFromPlan (cos : String → List ℚ → ℚ)
    (subtasks : List Subtask) (sp : SearchPlan) : Except String (Option ExecutionDAG) := do
  let matched_triples := matchSubtasksToWorkflowsFromPool cos subtasks sp.workflows
  if matched_triples.isEmpty then .ok none
  else do
    let nodes := matched_triples.map (fun tr =>
      ({ id := "subtask_" ++ toString tr.1
         description := tr.2.1.text
         workflow := tr.2.2
         weight := tr.2.1.weight
         confidence_score := tr.2.2.similarity_score } : SubtaskNode))
    let nodes := inferDependencies nodes
    let r ← topological_sort nodes
    let ns := r.1
    let root_ids := (ns.filter (fun n => n.dependencies.isEmpty)).map (fun n => n.id)
    let coverage := toString matched_triples.length ++ "/" ++ toString subtasks.length
    .ok (some
      { nodes := ns
        root_ids := root_ids
        execution_order := r.2
        total_download_cost := dedupDownloadCost ns
        total_execution_cost := totalExecutionCost ns
        coverage := coverage
        overall_confidence := overallConfidence ns })

/-- `_create_variant_dag_from_plan`. -/
def createVariantDagFromPlan (sp : SearchPlan) (variant : ℕ) : Option ExecutionDAG :=
  if sp.workflows.length ≤ variant then none
  else
    let main := sp.workflows.getD (min variant (sp.workflows.length - 1)) default
    let node : SubtaskNode :=
      { id := "subtask_0"
        description := "Main workflow"
        workflow := main
        weight := 1
        confidence_score := main.similarity_score }
    some
      { nodes := [node]
        root_ids := ["subtask_0"]
        execution_order := ["subtask_0"]
        total_download_cost := node.token_cost
        total_execution_cost := node.execution_tokens
        coverage := "1/1"
        overall_confidence := node.confidence_score }

/-- `_rank_dags` score: `confidence*10 + max(0, 10 - total_cost/1000)`. -/
def scoreDag (dag : ExecutionDAG) : ℚ :=
  qadd (qmul dag.overall_confidence 10) (max 0 (qsub 10 (qdiv (dag.total_cost : ℚ) 1000)))

/-- `_rank_dags`: stable descending sort by `scoreDag`. -/
def rankDags (dags : List ExecutionDAG) : List ExecutionDAG := sortDesc scoreDag dags

/-- `recompose`. -/
def recompose (cos : String → List ℚ → ℚ) (subtasks : List Subtask)
    (search_plan : SearchPlan) (top_k : ℕ) : Except String (List ExecutionDAG) := do
  let dag_solutions ←
    if search_plan.is_composite then do
      let d1 ← createDagFromComposite search_plan
      let sols := match d1 with | some d => [d] | none => []
      let sols := if 1 < search_plan.workflows.length then
          match createSingleWorkflowDagFromPlan search_plan with
          | some d => sols ++ [d]
          | none => sols
        else sols
      pure sols
    else do
      let sols := match createSingleWorkflowDagFromPlan search_plan with
        | some d => [d]
        | none => []
      let sols ← if subtasks.length ≤ search_plan.workflows.length then do
          let d2 ← createMultiWorkflowDagFromPlan cos subtasks search_plan
          pure (match d2 with | some d => sols ++ [d] | none => sols)
        else pure sols
      let sols := ((List.range (min top_k search_plan.workflows.length)).drop 2).foldl
        (fun acc i =>
          match createVariantDagFromPlan search_plan i with
          | some d => acc ++ [d]
          | none => acc) sols
      pure sols
  .ok ((rankDags dag_solutions).take top_k)

end WorkflowRecomposer

/-! ## Scenario C (claim C9) -/

instance {e a : Type} [DecidableEq e] [DecidableEq a] : DecidableEq (Except e a)
  | .ok x, .ok y =>
    if h : x = y then .isTrue (congrArg Except.ok h)
    else .isFalse (fun he => h (Except.ok.inj he))
  | .error x, .error y =>
    if h : x = y then .isTrue (congrArg Except.error h)
    else .isFalse (fun he => h (Except.error.inj he))
  | .ok _, .error _ => .isFalse (fun he => Except.noConfusion he)
  | .error _, .ok _ => .isFalse (fun he => Except.noConfusion he)

def exC9_wfA : Workflow :=
  { workflow_id := "wA"
    title := "A"
    description := ""
    task_type := "filing"
    download_cost := 10
    execution_cost := 20 }

def exC9_wfB : Workflow :=
  { workflow_id := "wB"
    title := "B"
    description := ""
    task_type := "data_gathering"
    download_cost := 30
    execution_cost := 40 }

def exC9_wfC : Workflow :=
  { workflow_id := "wC"
    title := "C"
    description := ""
    task_type := "filing"
    download_cost := 50
    execution_cost := 60 }

/-- The three nodes of Scenario C: `A(weight 1.0, "filing")`,
`B(weight 0.6, "data_gathering")`, `C(weight 0.5, "filing")`. -/
def exC9_nodes : List SubtaskNode :=
  [ { id := "A", description := "task A", workflow := exC9_wfA, weight := 1 },
    { id := "B", description := "task B", workflow := exC9_wfB, weight := mkRat 6 10 },
    { id := "C", description := "task C", workflow := exC9_wfC, weight := mkRat 5 10 } ]

def exC9_inferred : List SubtaskNode := WorkflowRecomposer.inferDependencies exC9_nodes

/-- Counterexample to C9 as stated: dependency inference *does* add the edge
`A→C` (rule 2 fires on the weight gap 0.5 within the same precedence class),
and the repaired execution order starts with `A`, not `B`. -/
theorem claim_C9_counterexample :
    "A" ∈ ((WorkflowRecomposer.findNode? exC9_inferred "C").elim [] (fun n => n.dependencies)) ∧
    (WorkflowRecomposer.topological_sort exC9_inferred).map (fun r => r.2.head?) ≠
      .ok (some "B") := by
  constructor
  · decide
  · decide

/-- C9 (amended).  On Scenario C the inference adds the precedence edges
`B→A` and `B→C` **and** the rule-2 weight-dominance edges `A→B` and `A→C`,
creating the 2-cycle `A↔B`; the repair step removes the weakest edge `B→A`
(strength −0.34, against 0.5, 0.6 and 0.16 for the other three edges), and the
resulting `execution_order` is `[A, B, C]` — `A` first, `B` second. -/
theorem claim_C9 :
    exC9_inferred.map (fun n => (n.id, n.dependencies, n.children)) =
      [("A", ["B"], ["B", "C"]), ("B", ["A"], ["A", "C"]), ("C", ["A", "B"], [])] ∧
    (WorkflowRecomposer.topological_sort exC9_inferred).map
        (fun r => (r.2, r.1.map (fun n => (n.id, n.dependencies, n.children)))) =
      .ok (["A", "B", "C"],
        [("A", [], ["B", "C"]), ("B", ["A"], ["C"]), ("C", ["A", "B"], [])]) := by
  constructor
  · decide
  · decide

/-! ## Claim C1: the no-cycle invariant of `recompose` -/

/-- The property claimed by C1 of one returned DAG: every remaining dependency
edge `u→v` has `u` strictly before `v` in `execution_order`. -/
def respectsAllEdges (d : ExecutionDAG) : Bool :=
  d.nodes.all (fun v => v.dependencies.all (fun u =>
    d.execution_order.indexOf u < d.execution_order.indexOf v.id))

/-- C1 as stated, at one input of `recompose`: every returned DAG respects
every remaining edge. -/
def claimC1Holds (r : Except String (List ExecutionDAG)) : Bool :=
  match r with
  | .error _ => true
  | .ok dags => dags.all respectsAllEdges

def exC1_workflow (i : ℕ) (t : String) : Workflow :=
  { workflow_id := "w" ++ toString i
    title := "W" ++ toString i
    description := ""
    task_type := t
    download_cost := 100
    execution_cost := 10
    similarity_score := mkRat 1 2 }

/-- Two low-weight data-gathering subtasks and three heavy filing subtasks:
inference produces the complete bipartite digraph in both directions
(6 two-cycles), which survives the 5 weakest-edge removals. -/
def exC1_subtasks : List Subtask :=
  [ { text := "gather one", task_type := "data_gathering", weight := mkRat 2 10 },
    { text := "gather two", task_type := "data_gathering", weight := mkRat 2 10 },
    { text := "file one", task_type := "filing", weight := mkRat 9 10 },
    { text := "file two", task_type := "filing", weight := mkRat 9 10 },
    { text := "file three", task_type := "filing", weight := mkRat 9 10 } ]

def exC1_plan : SearchPlan :=
  { plan_type := "composite"
    workflows := [exC1_workflow 0 "data_gathering", exC1_workflow 1 "data_gathering",
      exC1_workflow 2 "filing", exC1_workflow 3 "filing", exC1_workflow 4 "filing"]
    overall_score := mkRat 1 2
    subtasks := exC1_subtasks
    subtask_workflow_mapping := [(0,0), (1,1), (2,2), (3,3), (4,4)]
    coverage := "5/5" }

set_option maxRecDepth 400000 in
/-- Counterexample to C1 as stated: on this composite plan the cycles survive
the five weakest-edge removals, the repair falls back to the pure
descending-weight order `[subtask_2, subtask_3, subtask_4, subtask_0,
subtask_1]`, and the remaining edge `subtask_1 → subtask_4` is violated in a
DAG returned by `recompose`. -/
theorem claim_C1_counterexample :
    claimC1Holds (WorkflowRecomposer.recompose (fun _ _ => 0) exC1_subtasks exC1_plan 5) =
      false := by
  decide

/-! ## RecursiveQueryDecomposer (`backend/query_decomposer.py`)

The decomposer's collaborators (Elasticsearch hybrid search, the Claude
scoring/decomposition service, the embedding service) are abstracted as the
`Services` record, at exactly the call boundaries the Python methods use.
The `search`/`_recursive_split` recursion is instrumented with `SearchStats`:
the largest `depth` argument seen across all nested `search` invocations and
the number of `decompose_task` oracle calls. -/

namespace RecursiveQueryDecomposer

/-- `Config.SCORE_THRESHOLD_GOOD` default (τ_good). -/
def SCORE_THRESHOLD_GOOD : ℚ := mkRat 85 100

/-- `Config.SCORE_IMPROVEMENT_EPSILON` default (ε). -/
def SCORE_IMPROVEMENT_EPSILON : ℚ := mkRat 1 10

/-- `Config.MAX_RECURSION_DEPTH` default. -/
def MAX_RECURSION_DEPTH : ℕ := 2

/-- External collaborators: `broadSearch` is `_broad_search` (hybrid search
filtered to workflow hits and converted — always called with its own
`top_k=10`), `scorePlanQuality` and `decomposeTask` the Claude service, and
`subtaskSearch` the per-subtask filtered hybrid search of
`_compose_plan_from_subtasks` (already converted, at most 3 hits). -/
structure Services where
  broadSearch : String → List SearchResult
  scorePlanQuality : String → Workflow → ℚ
  decomposeTask : String → List Subtask
  subtaskSearch : Subtask → List Workflow

/-- The `CompositePlan` dataclass of `query_decomposer.py`. -/
structure CompositePlan where
  workflows : List Workflow
  subtasks : List Subtask
  overall_score : ℚ
  coverage : String
  deriving Repr, DecidableEq, Inhabited

/-- Instrumentation carried alongside each result. -/
structure SearchStats where
  maxDepthSeen : ℕ
  decomposeCalls : ℕ
  deriving Repr, DecidableEq, Inhabited

/-- Python `max(candidates, key=lambda x: x.score)` (first maximum wins). -/
def pyMaxSearchResult (c0 : SearchResult) (cs : List SearchResult) : SearchResult :=
  cs.foldl (fun b y => if b.score < y.score then y else b) c0

/-- `_compose_plan_from_subtasks`: search each subtask (subtasks with no hits
are dropped), pick each remaining subtask's first hit, score it, and build the
weight-normalised average over the matched subtasks. -/
def composePlanFromSubtasks (S : Services) (subtasks : List Subtask) : CompositePlan :=
  let subtask_results := subtasks.foldl (fun acc st =>
    let ws := S.subtaskSearch st
    if ws.isEmpty then acc else acc ++ [(st, ws)]) []
  if subtask_results.isEmpty then
    { workflows := []
      subtasks := subtasks
      overall_score := 0
      coverage := "0/" ++ toString subtasks.length }
  else
    let matched := subtask_results.map (fun p => (p.1, p.2.headD default))
    let weighted_scores := matched.map (fun p => qmul (S.scorePlanQuality p.1.text p.2) p.1.weight)
    let total_weight := qsum (matched.map (fun p => p.1.weight))
    let overall_score := if 0 < total_weight then qdiv (qsum weighted_scores) total_weight else 0
    { workflows := matched.map (fun p => p.2)
      subtasks := matched.map (fun p => p.1)
      overall_score := overall_score
      coverage := toString matched.length ++ "/" ++ toString subtasks.length }

/-- `_composite_to_plan`: tag as composite with the identity
subtask→workflow mapping. -/
def compositeToPlan (cp : CompositePlan) : SearchPlan :=
  { plan_type := "composite"
    workflows := cp.workflows
    overall_score := cp.overall_score
    subtasks := cp.subtasks
    subtask_workflow_mapping := (List.range cp.subtasks.length).map (fun i => (i, i))
    coverage := cp.coverage }

/-- Step 10 of `search`: return whichever of the direct pool and the composite
scored higher. -/
def finalReturnPlan (candidates : List SearchResult) (topK : ℕ) (best_plan_score : ℚ)
    (composite_plan : CompositePlan) : SearchPlan :=
  if best_plan_score < composite_plan.overall_score then compositeToPlan composite_plan
  else
    { plan_type := "direct"
      workflows := (candidates.take topK).map (fun c => c.workflow)
      overall_score := best_plan_score }

mutual

/-- `search`, structurally recursive on a fuel argument.  The fuel only
bounds the mutual recursion; `search`/`_recursive_split` alternate and each
re-entry needs `depth < MAX_RECURSION_DEPTH`, so a chain consumes at most
6 units — the wrapper `search` below passes 7, and the fuel-exhausted branch
is unreachable. -/
def searchGo (S : Services) : ℕ → String → ℕ → ℕ → SearchPlan × SearchStats
  | 0, _task, _topK, depth =>
    ({ plan_type := "direct", workflows := [], overall_score := 0 }, ⟨depth, 0⟩)
  | fuel+1, task, topK, depth =>
    let candidates := S.broadSearch task
    match candidates with
    | [] => ({ plan_type := "direct", workflows := [], overall_score := 0 }, ⟨depth, 0⟩)
    | c0 :: cs =>
      let best_candidate := pyMaxSearchResult c0 cs
      let best_plan_score := S.scorePlanQuality task best_candidate.workflow
      if SCORE_THRESHOLD_GOOD ≤ best_plan_score then
        ({ plan_type := "direct"
           workflows := ((c0 :: cs).take topK).map (fun c => c.workflow)
           overall_score := best_plan_score }, ⟨depth, 0⟩)
      else
        let subtasks := S.decomposeTask task
        let composite_plan := composePlanFromSubtasks S subtasks
        if SCORE_IMPROVEMENT_EPSILON ≤ qsub composite_plan.overall_score best_plan_score then
          (compositeToPlan composite_plan, ⟨depth, 1⟩)
        else
          if composite_plan.overall_score < SCORE_THRESHOLD_GOOD ∧
              depth < MAX_RECURSION_DEPTH then
            let r := recursiveSplitGo S fuel task composite_plan (depth + 1)
            let stats : SearchStats := ⟨max depth r.2.maxDepthSeen, 1 + r.2.decomposeCalls⟩
            match r.1 with
            | some improved =>
              if composite_plan.overall_score < improved.overall_score then
                (compositeToPlan improved, stats)
              else (finalReturnPlan (c0 :: cs) topK best_plan_score composite_plan, stats)
            | none => (finalReturnPlan (c0 :: cs) topK best_plan_score composite_plan, stats)
          else (finalReturnPlan (c0 :: cs) topK best_plan_score composite_plan, ⟨depth, 1⟩)

/-- `_recursive_split`: find the worst-scoring matched pair, re-enter `search`
on its text at the given depth, substitute its best workflow and recompute the
weighted score. -/
def recursiveSplitGo (S : Services) : ℕ → String → CompositePlan → ℕ →
    Option CompositePlan × SearchStats
  | 0, _task, _cp, _depth => (none, ⟨0, 0⟩)
  | fuel+1, _original_task, cp, depth =>
    let worst := ((cp.subtasks.zip cp.workflows).enum).foldl
      (fun (st : Option ℕ × ℚ) pr =>
        let score := S.scorePlanQuality pr.2.1.text pr.2.2
        if score < st.2 then (some pr.1, score) else st) (none, 1)
    match worst.1 with
    | none => (none, ⟨0, 0⟩)
    | some worst_idx =>
      let worst_subtask := cp.subtasks.getD worst_idx default
      let r := searchGo S fuel worst_subtask.text 3 depth
      if r.1.workflows.isEmpty then (none, r.2)
      else
        let improved_workflows := cp.workflows.set worst_idx (r.1.workflows.headD default)
        let weighted_scores := (cp.subtasks.zip improved_workflows).map
          (fun p => qmul (S.scorePlanQuality p.1.text p.2) p.1.weight)
        let total_weight := qsum (cp.subtasks.map (fun st => st.weight))
        let new_overall := if 0 < total_weight then qdiv (qsum weighted_scores) total_weight
          else 0
        (some { workflows := improved_workflows
                subtasks := cp.subtasks
                overall_score := new_overall
                coverage := cp.coverage }, r.2)

end

/-- `search(task_description, top_k, depth)` of the decomposer. -/
def search (S : Services) (task : String) (topK depth : ℕ) : SearchPlan × SearchStats :=
  searchGo S 7 task topK depth

end RecursiveQueryDecomposer

namespace RecursiveQueryDecomposer

/-- Instrumentation bound: the largest `depth` argument any nested `search`
invocation sees is at most `max depth MAX_RECURSION_DEPTH`, for every fuel,
every oracle and every input; `_recursive_split` entered at
`depth ≤ MAX_RECURSION_DEPTH` stays below `MAX_RECURSION_DEPTH`. -/
theorem stats_depth_le (S : Services) : ∀ fuel : ℕ,
    (∀ task topK depth,
      (searchGo S fuel task topK depth).2.maxDepthSeen ≤ max depth MAX_RECURSION_DEPTH) ∧
    (∀ task cp depth, depth ≤ MAX_RECURSION_DEPTH →
      (recursiveSplitGo S fuel task cp depth).2.maxDepthSeen ≤ MAX_RECURSION_DEPTH) := by
  intro fuel
  induction fuel with
  | zero =>
    constructor
    · intro task topK depth
      simp [searchGo]
    · intro task cp depth _
      simp [recursiveSplitGo]
  | succ n ih =>
    constructor
    · intro task topK depth
      rw [searchGo]
      dsimp only
      split
      · simp
      · split_ifs with h1 h2 h3
        · simp
        · simp
        · have hr := ih.2 task
            (composePlanFromSubtasks S (S.decomposeTask task)) (depth + 1) h3.2
          split
          · split_ifs
            · simp only
              omega
            · simp only
              omega
          · simp only
            omega
        · simp
    · intro task cp depth hd
      rw [recursiveSplitGo]
      dsimp only
      split
      · simp
      · rename_i worst_idx heq
        have hs := ih.1 (cp.subtasks.getD worst_idx default).text 3 depth
        split_ifs with h <;> (dsimp only; omega)

/-- C2: with the default `max_depth = 2`, the recursion depth parameter of
`search` is bounded by 2 on every possible oracle behaviour — the largest
`depth` argument seen over all nested `search` re-invocations of a top-level
`search(task, top_k, depth=0)` call is at most 2, i.e. at most 2 nested
recursive calls occur (depth strictly increases by 1 on each re-entry). -/
theorem claim_C2 :
    MAX_RECURSION_DEPTH = 2 ∧
    ∀ (S : Services) (task : String) (topK : ℕ),
      (search S task topK 0).2.maxDepthSeen ≤ 2 := by
  refine ⟨rfl, fun S task topK => ?_⟩
  have h := (stats_depth_le S 7).1 task topK 0
  simpa [search, MAX_RECURSION_DEPTH] using h

end RecursiveQueryDecomposer

namespace RecursiveQueryDecomposer

/-- C5: whenever the broad search returns a non-empty candidate pool and the
oracle score of the best direct candidate reaches τ_good = 0.85, `search`
returns a `direct` plan carrying the first `top_k` candidates and that score,
and the oracle's decompose operation is never invoked (`decomposeCalls = 0`
counts every `decompose_task` call of the entire invocation). -/
theorem claim_C5 (S : Services) (task : String) (topK depth : ℕ)
    (c0 : SearchResult) (cs : List SearchResult)
    (hcand : S.broadSearch task = c0 :: cs)
    (hscore : SCORE_THRESHOLD_GOOD ≤ S.scorePlanQuality task (pyMaxSearchResult c0 cs).workflow) :
    search S task topK depth =
      ({ plan_type := "direct"
         workflows := ((c0 :: cs).take topK).map (fun c => c.workflow)
         overall_score := S.scorePlanQuality task (pyMaxSearchResult c0 cs).workflow },
       ⟨depth, 0⟩) := by
  unfold search
  rw [show (7:ℕ) = 6+1 from rfl, searchGo, hcand]
  dsimp only
  rw [if_pos hscore]

def exC5_wf : Workflow :=
  { workflow_id := "ohio_w2_itemized_2024"
    title := "Ohio 2024 IT-1040"
    description := "File Ohio taxes"
    task_type := "tax_filing"
    download_cost := 200
    execution_cost := 800 }

def exC5_S : Services :=
  { broadSearch := fun _ => [{ workflow := exC5_wf, score := mkRat 92 100 }]
    scorePlanQuality := fun _ _ => mkRat 92 100
    decomposeTask := fun _ => []
    subtaskSearch := fun _ => [] }

/-- Witness for C5 on a one-candidate catalog scoring 0.92 ≥ 0.85. -/
theorem claim_C5_witness :
    search exC5_S "file Ohio taxes" 10 0 =
      ({ plan_type := "direct"
         workflows := [exC5_wf]
         overall_score := mkRat 92 100 }, ⟨0, 0⟩) :=
  claim_C5 exC5_S "file Ohio taxes" 10 0
    { workflow := exC5_wf, score := mkRat 92 100 } [] rfl (by decide)

/-- The composite score exactly as the specification words it: the
weight-normalised average `Σ (score_i · weight_i) / Σ weight_i` over the
matched subtasks only (a subtask with zero search hits contributes to
neither sum). -/
def specCompositeScore (S : Services) (subtasks : List Subtask) : ℚ :=
  let matched := subtasks.filter (fun st => !(S.subtaskSearch st).isEmpty)
  (matched.map (fun st =>
      S.scorePlanQuality st.text ((S.subtaskSearch st).headD default) * st.weight)).sum /
    (matched.map (fun st => st.weight)).sum

theorem subtaskResults_fold (f : Subtask → List Workflow) (subtasks : List Subtask) :
    ∀ acc : List (Subtask × List Workflow),
      subtasks.foldl (fun acc st =>
          if (f st).isEmpty then acc else acc ++ [(st, f st)]) acc =
        acc ++ (subtasks.filter (fun st => !(f st).isEmpty)).map (fun st => (st, f st)) := by
  induction subtasks with
  | nil => intro acc; simp
  | cons st sts ih =>
    intro acc
    rw [List.foldl_cons]
    by_cases h : (f st).isEmpty
    · rw [if_pos h, List.filter_cons_of_neg (by simp [h]), ih acc]
    · rw [if_neg h, List.filter_cons_of_pos (by simp [h]), ih (acc ++ [(st, f st)])]
      simp

def exC7_direct_wf : Workflow :=
  { workflow_id := "wdirect"
    title := "direct candidate"
    description := ""
    task_type := "general"
    download_cost := 1
    execution_cost := 1 }

def exC7_sub_wf (i : ℕ) : Workflow :=
  { workflow_id := "wsub" ++ toString i
    title := "sub candidate"
    description := ""
    task_type := "general"
    download_cost := 1
    execution_cost := 1 }

/-- Oracle of Scenario B: best direct candidate scores 0.40, the task
decomposes into 3 subtasks of weights 1.0 / 0.7 / 0.5, each matched to an
item scoring 0.9. -/
def exC7_S : Services :=
  { broadSearch := fun _ => [{ workflow := exC7_direct_wf, score := 1 }]
    scorePlanQuality := fun _ w => if w.workflow_id == "wdirect" then mkRat 4 10 else mkRat 9 10
    decomposeTask := fun _ =>
      [ { text := "sub one", task_type := "general", weight := 1 },
        { text := "sub two", task_type := "general", weight := mkRat 7 10 },
        { text := "sub three", task_type := "general", weight := mkRat 5 10 } ]
    subtaskSearch := fun st =>
      if st.text == "sub one" then [exC7_sub_wf 1]
      else if st.text == "sub two" then [exC7_sub_wf 2]
      else if st.text == "sub three" then [exC7_sub_wf 3]
      else [] }

/-- C7: the composite score of `_compose_plan_from_subtasks` equals the
weight-normalised average over matched subtasks only (for positive subtask
weights); and on Scenario B (direct score 0.40, three subtasks of weights
1.0/0.7/0.5 each matched at 0.9) the composite scores 0.9 and is accepted,
since 0.9 − 0.40 ≥ ε = 0.10. -/
theorem claim_C7 :
    (∀ (S : Services) (subtasks : List Subtask), (∀ st ∈ subtasks, 0 < st.weight) →
      (composePlanFromSubtasks S subtasks).overall_score = specCompositeScore S subtasks) ∧
    ((search exC7_S "prepare my complex filing" 10 0).1.plan_type = "composite" ∧
      (search exC7_S "prepare my complex filing" 10 0).1.overall_score = mkRat 9 10) := by
  constructor
  · intro S subtasks hw
    unfold composePlanFromSubtasks specCompositeScore
    rw [subtaskResults_fold (S.subtaskSearch) subtasks []]
    dsimp only
    set matched := subtasks.filter (fun st => !(S.subtaskSearch st).isEmpty) with hmatched
    by_cases hm : matched = []
    · simp [hm]
    · have hne : ¬ (List.map (fun st => (st, S.subtaskSearch st)) matched).isEmpty := by
        simp [List.isEmpty_iff, hm]
      rw [List.nil_append, if_neg hne]
      dsimp only
      simp only [List.map_map, Function.comp_def, qmul_eq, qsum_eq, qdiv_eq]
      have htw : 0 < (matched.map (fun st => st.weight)).sum := by
        apply List.sum_pos
        · intro x hx
          rcases List.mem_map.mp hx with ⟨st, hst, rfl⟩
          exact hw st (List.mem_of_mem_filter hst)
        · simpa using hm
      rw [if_pos htw]
  · constructor
    · decide
    · decide

/-- Witness for the universally quantified part of C7, at the Scenario-B
oracle and its three positive-weight subtasks. -/
theorem claim_C7_witness :
    (composePlanFromSubtasks exC7_S (exC7_S.decomposeTask "q")).overall_score =
      specCompositeScore exC7_S (exC7_S.decomposeTask "q") :=
  claim_C7.1 exC7_S (exC7_S.decomposeTask "q") (by decide)

end RecursiveQueryDecomposer

/-! ## MarketplaceOrchestrator (`backend/orchestrator.py`) and claim C3 -/

namespace MarketplaceOrchestrator

/-- The attributes of the `SearchPlan` dataclass (`models.py`, lines
503–522): its six fields and its one defined property.  `final_depth` and
`max_depth_reached` are **not** among them. -/
def searchPlanAttributes : List String :=
  ["plan_type", "workflows", "overall_score", "subtasks",
   "subtask_workflow_mapping", "coverage", "is_composite"]

/-- Python attribute access on a `SearchPlan` object: raises
`AttributeError` when the name is not an attribute of the dataclass. -/
def getattrSearchPlan (name : String) : Except String Unit :=
  if name ∈ searchPlanAttributes then .ok () else .error ("AttributeError: " ++ name)

/-- `estimate_price_and_search` (with `require_close_match=False`), embedded
through its failure point.  The sanitizer is external and the query arrives
already sanitized; after `search` returns, line 165 of orchestrator.py
evaluates `search_plan.final_depth` and `search_plan.max_depth_reached`
inside an f-string — attributes the `SearchPlan` dataclass does not define —
before the subtask extraction and `recompose` steps can run.  (The solution
summaries and the session-cache write that follow `recompose` are
presentation and an external store.) -/
def estimate_price_and_search (cos : String → List ℚ → ℚ)
    (S : RecursiveQueryDecomposer.Services) (raw_query : String) (top_k : ℕ) :
    Except String (SearchPlan × List ExecutionDAG) := do
  let search_plan := (RecursiveQueryDecomposer.search S raw_query top_k 0).1
  let _ ← getattrSearchPlan "final_depth"
  let _ ← getattrSearchPlan "max_depth_reached"
  let subtasks := if search_plan.is_composite ∧ ¬ search_plan.subtasks.isEmpty then
      search_plan.subtasks
    else
      [{ text := raw_query, task_type := "general", weight := 1,
         rationale := "Direct match - no decomposition needed" }]
  let dags ← WorkflowRecomposer.recompose cos subtasks search_plan top_k
  .ok (search_plan, dags)

end MarketplaceOrchestrator

def exC3_wf : Workflow :=
  { workflow_id := "w_low"
    title := "weak match"
    description := ""
    task_type := "general"
    download_cost := 5
    execution_cost := 5 }

/-- A catalog that yields a non-empty candidate pool whose best oracle score
is only 0.3 — the "low-quality-but-nonempty match" of C3. -/
def exC3_S : RecursiveQueryDecomposer.Services :=
  { broadSearch := fun _ => [{ workflow := exC3_wf, score := mkRat 3 10 }]
    scorePlanQuality := fun _ _ => mkRat 3 10
    decomposeTask := fun _ => []
    subtaskSearch := fun _ => [] }

/-- C3 is violated by the code: on a low-quality-but-nonempty match,
`estimate_price_and_search` raises `AttributeError` at orchestrator.py line
165 (`search_plan.final_depth`), because `SearchPlan` defines no such
attribute, instead of returning a low-confidence solution list. -/
theorem claim_C3 :
    MarketplaceOrchestrator.estimate_price_and_search (fun _ _ => 0) exC3_S
        "estimate my taxes" 5 =
      .error "AttributeError: final_depth" := by
  decide

/-! ## Claim C8: cost accounting of every DAG returned by `recompose` -/

namespace WorkflowRecomposer

/-- The distinct workflows referenced by the nodes: first node of each
distinct `workflow_id`, in node order. -/
def firstByWorkflowId : List SubtaskNode → List String → List SubtaskNode
  | [], _ => []
  | n :: ns, seen =>
    if seen.contains n.workflow_id then firstByWorkflowId ns seen
    else n :: firstByWorkflowId ns (seen ++ [n.workflow_id])

/-- Spec-side download cost: the sum of `download_cost` over the distinct
workflow ids referenced by the nodes (charged once per unique workflow). -/
def specDownloadCost (nodes : List SubtaskNode) : ℤ :=
  ((firstByWorkflowId nodes []).map (fun n => n.workflow.download_cost)).sum

/-- Spec-side execution cost: the sum of `execution_cost` over all node
instances. -/
def specExecutionCost (nodes : List SubtaskNode) : ℤ :=
  (nodes.map (fun n => n.workflow.execution_cost)).sum

theorem dedupDownloadCost_fold (nodes : List SubtaskNode) :
    ∀ (seen : List String) (total : ℤ),
      (nodes.foldl (fun (st : List String × ℤ) node =>
        if st.1.contains node.workflow_id then st
        else (st.1 ++ [node.workflow_id], st.2 + node.token_cost)) (seen, total)).2 =
      total + ((firstByWorkflowId nodes seen).map (fun n => n.workflow.download_cost)).sum := by
  induction nodes with
  | nil => intro seen total; simp [firstByWorkflowId]
  | cons n ns ih =>
    intro seen total
    rw [List.foldl_cons]
    by_cases h : seen.contains n.workflow_id
    · rw [if_pos h]
      simp only [firstByWorkflowId, if_pos h]
      exact ih seen total
    · rw [if_neg h]
      simp only [firstByWorkflowId, if_neg h]
      rw [ih (seen ++ [n.workflow_id]) (total + n.token_cost)]
      simp [SubtaskNode.token_cost, SubtaskNode.download_cost]
      ring

theorem dedupDownloadCost_eq (nodes : List SubtaskNode) :
    dedupDownloadCost nodes = specDownloadCost nodes := by
  unfold dedupDownloadCost specDownloadCost
  rw [dedupDownloadCost_fold nodes [] 0]
  simp

theorem totalExecutionCost_eq (nodes : List SubtaskNode) :
    totalExecutionCost nodes = specExecutionCost nodes := by
  unfold totalExecutionCost specExecutionCost
  simp [SubtaskNode.execution_tokens, SubtaskNode.execution_cost]

theorem mem_insDesc {α : Type} {key : α → ℚ} {x a : α} {l : List α} :
    x ∈ insDesc key a l ↔ x = a ∨ x ∈ l := by
  induction l with
  | nil => simp [insDesc]
  | cons y ys ih =>
    by_cases h : key a ≤ key y
    · simp only [insDesc, if_pos h, List.mem_cons, ih]
      tauto
    · simp [insDesc, h]

theorem mem_sortDesc {α : Type} {key : α → ℚ} {x : α} {l : List α} :
    x ∈ sortDesc key l ↔ x ∈ l := by
  suffices h : ∀ acc, x ∈ l.foldl (fun acc y => insDesc key y acc) acc ↔ x ∈ acc ∨ x ∈ l by
    have := h []
    simpa [sortDesc] using this
  induction l with
  | nil => intro acc; simp
  | cons y ys ih =>
    intro acc
    simp only [List.foldl_cons, ih, mem_insDesc, List.mem_cons]
    tauto

/-- Inversion: every DAG of a successful `recompose` run is produced by one
of the four DAG builders. -/
theorem mem_recompose (cos : String → List ℚ → ℚ) (subtasks : List Subtask)
    (sp : SearchPlan) (k : ℕ) (dags : List ExecutionDAG) (dag : ExecutionDAG)
    (hok : recompose cos subtasks sp k = .ok dags) (hmem : dag ∈ dags) :
    createDagFromComposite sp = .ok (some dag) ∨
    createSingleWorkflowDagFromPlan sp = some dag ∨
    createMultiWorkflowDagFromPlan cos subtasks sp = .ok (some dag) ∨
    (∃ i, createVariantDagFromPlan sp i = some dag) := by
  unfold recompose at hok
  by_cases hcomp : sp.is_composite
  · rw [if_pos hcomp] at hok
    cases hd1 : createDagFromComposite sp with
    | error e =>
      rw [hd1] at hok
      exact absurd hok (by simp [bind, Except.bind])
    | ok od1 =>
      rw [hd1] at hok
      simp only [Except.bind, bind, pure, Except.pure, Except.ok.injEq] at hok
      subst hok
      have hsols : dag ∈ (match od1 with | some d => [d] | none => []) ∨
          createSingleWorkflowDagFromPlan sp = some dag := by
        have h1 := List.mem_of_mem_take hmem
        have h2 := mem_sortDesc.mp h1
        split at h2
        · rename_i hlen
          split at h2
          · rename_i d hsingle
            rcases List.mem_append.mp h2 with h3 | h3
            · exact Or.inl h3
            · simp at h3
              subst h3
              exact Or.inr hsingle
          · exact Or.inl h2
        · exact Or.inl h2
      rcases hsols with h3 | h3
      · cases od1 with
        | none => simp at h3
        | some d =>
          simp at h3
          subst h3
          exact Or.inl rfl
      · exact Or.inr (Or.inl h3)
  · rw [if_neg hcomp] at hok
    by_cases hlen : subtasks.length ≤ sp.workflows.length
    · rw [if_pos hlen] at hok
      cases hd2 : createMultiWorkflowDagFromPlan cos subtasks sp with
      | error e =>
        rw [hd2] at hok
        exact absurd hok (by simp [bind, Except.bind])
      | ok od2 =>
        rw [hd2] at hok
        simp only [Except.bind, bind, pure, Except.pure, Except.ok.injEq] at hok
        subst hok
        have h1 := List.mem_of_mem_take hmem
        have h2 := mem_sortDesc.mp h1
        -- peel the variant fold, then the two optional heads
        have hfold : ∀ (ids : List ℕ) (sols : List ExecutionDAG),
            dag ∈ ids.foldl (fun acc i =>
              match createVariantDagFromPlan sp i with
              | some d => acc ++ [d]
              | none => acc) sols →
            dag ∈ sols ∨ ∃ i, createVariantDagFromPlan sp i = some dag := by
          intro ids
          induction ids with
          | nil => intro sols h; exact Or.inl h
          | cons i is ihv =>
            intro sols h
            rw [List.foldl_cons] at h
            cases hv : createVariantDagFromPlan sp i with
            | some d =>
              rw [hv] at h
              rcases ihv _ h with h3 | h3
              · rcases List.mem_append.mp h3 with h4 | h4
                · exact Or.inl h4
                · simp at h4
                  subst h4
                  exact Or.inr ⟨i, hv⟩
              · exact Or.inr h3
            | none =>
              rw [hv] at h
              exact ihv _ h
        rcases hfold _ _ h2 with h3 | h3
        · rcases od2 with _ | d
          · simp only at h3
            split at h3
            · rename_i d hsingle
              simp at h3
              subst h3
              exact Or.inr (Or.inl hsingle)
            · simp at h3
          · simp only at h3
            have hbase : dag ∈ (match createSingleWorkflowDagFromPlan sp with
                | some d => [d] | none => ([] : List ExecutionDAG)) ∨ dag = d := by
              rcases List.mem_append.mp h3 with h4 | h4
              · exact Or.inl h4
              · simp at h4
                exact Or.inr h4
            rcases hbase with h4 | h4
            · split at h4
              · rename_i d2 hsingle
                simp at h4
                subst h4
                exact Or.inr (Or.inl hsingle)
              · simp at h4
            · subst h4
              exact Or.inr (Or.inr (Or.inl rfl))
        · exact Or.inr (Or.inr (Or.inr h3))
    · rw [if_neg hlen] at hok
      simp only [Except.bind, bind, pure, Except.pure, Except.ok.injEq] at hok
      subst hok
      have h1 := List.mem_of_mem_take hmem
      have h2 := mem_sortDesc.mp h1
      have hfold : ∀ (ids : List ℕ) (sols : List ExecutionDAG),
          dag ∈ ids.foldl (fun acc i =>
            match createVariantDagFromPlan sp i with
            | some d => acc ++ [d]
            | none => acc) sols →
          dag ∈ sols ∨ ∃ i, createVariantDagFromPlan sp i = some dag := by
        intro ids
        induction ids with
        | nil => intro sols h; exact Or.inl h
        | cons i is ihv =>
          intro sols h
          rw [List.foldl_cons] at h
          cases hv : createVariantDagFromPlan sp i with
          | some d =>
            rw [hv] at h
            rcases ihv _ h with h3 | h3
            · rcases List.mem_append.mp h3 with h4 | h4
              · exact Or.inl h4
              · simp at h4
                subst h4
                exact Or.inr ⟨i, hv⟩
            · exact Or.inr h3
          | none =>
            rw [hv] at h
            exact ihv _ h
      rcases hfold _ _ h2 with h3 | h3
      · split at h3
        · rename_i d hsingle
          simp at h3
          subst h3
          exact Or.inr (Or.inl hsingle)
        · simp at h3
      · exact Or.inr (Or.inr (Or.inr h3))

end WorkflowRecomposer

namespace WorkflowRecomposer

theorem except_bind_ok {α β : Type} {x : Except String α} {f : α → Except String β} {b : β}
    (h : (x >>= f) = .ok b) : ∃ a, x = .ok a ∧ f a = .ok b := by
  cases x with
  | ok a => exact ⟨a, rfl, h⟩
  | error e => exact absurd h (by simp [bind, Except.bind])

theorem createDagFromComposite_costs {sp : SearchPlan} {dag : ExecutionDAG}
    (h : createDagFromComposite sp = .ok (some dag)) :
    dag.total_download_cost = dedupDownloadCost dag.nodes ∧
    dag.total_execution_cost = totalExecutionCost dag.nodes := by
  unfold createDagFromComposite at h
  split at h
  · simp at h
  · obtain ⟨nodes0, hn, h⟩ := except_bind_ok h
    obtain ⟨r, hr, h⟩ := except_bind_ok h
    simp only [Except.ok.injEq, Option.some.injEq] at h
    subst h
    exact ⟨rfl, rfl⟩

theorem createSingleWorkflowDagFromPlan_costs {sp : SearchPlan} {dag : ExecutionDAG}
    (h : createSingleWorkflowDagFromPlan sp = some dag) :
    dag.total_download_cost = dedupDownloadCost dag.nodes ∧
    dag.total_execution_cost = totalExecutionCost dag.nodes := by
  unfold createSingleWorkflowDagFromPlan at h
  split at h
  · exact absurd h (by simp)
  · simp only [Option.some.injEq] at h
    subst h
    constructor
    · simp [dedupDownloadCost]
    · simp [totalExecutionCost]

theorem createMultiWorkflowDagFromPlan_costs {cos : String → List ℚ → ℚ}
    {subtasks : List Subtask} {sp : SearchPlan} {dag : ExecutionDAG}
    (h : createMultiWorkflowDagFromPlan cos subtasks sp = .ok (some dag)) :
    dag.total_download_cost = dedupDownloadCost dag.nodes ∧
    dag.total_execution_cost = totalExecutionCost dag.nodes := by
  unfold createMultiWorkflowDagFromPlan at h
  dsimp only at h
  split at h
  · simp at h
  · obtain ⟨r, hr, h⟩ := except_bind_ok h
    simp only [Except.ok.injEq, Option.some.injEq] at h
    subst h
    exact ⟨rfl, rfl⟩

theorem createVariantDagFromPlan_costs {sp : SearchPlan} {i : ℕ} {dag : ExecutionDAG}
    (h : createVariantDagFromPlan sp i = some dag) :
    dag.total_download_cost = dedupDownloadCost dag.nodes ∧
    dag.total_execution_cost = totalExecutionCost dag.nodes := by
  unfold createVariantDagFromPlan at h
  split at h
  · exact absurd h (by simp)
  · simp only [Option.some.injEq] at h
    subst h
    constructor
    · simp [dedupDownloadCost]
    · simp [totalExecutionCost]

/-- C8: for every DAG returned by `recompose`, `total_download_cost` is the
sum of `download_cost` over the *distinct* workflow ids referenced by its
nodes (charged once per unique workflow, at its first occurrence), and
`total_execution_cost` is the sum of `execution_cost` over *all* node
instances (a workflow reused by k nodes pays execution cost k times). -/
theorem claim_C8 (cos : String → List ℚ → ℚ) (subtasks : List Subtask)
    (sp : SearchPlan) (k : ℕ) (dags : List ExecutionDAG) (dag : ExecutionDAG)
    (hok : recompose cos subtasks sp k = .ok dags) (hmem : dag ∈ dags) :
    dag.total_download_cost = specDownloadCost dag.nodes ∧
    dag.total_execution_cost = specExecutionCost dag.nodes := by
  have base : dag.total_download_cost = dedupDownloadCost dag.nodes ∧
      dag.total_execution_cost = totalExecutionCost dag.nodes := by
    rcases mem_recompose cos subtasks sp k dags dag hok hmem with h | h | h | ⟨i, h⟩
    · exact createDagFromComposite_costs h
    · exact createSingleWorkflowDagFromPlan_costs h
    · exact createMultiWorkflowDagFromPlan_costs h
    · exact createVariantDagFromPlan_costs h
  rw [base.1, base.2, dedupDownloadCost_eq, totalExecutionCost_eq]
  exact ⟨rfl, rfl⟩

end WorkflowRecomposer

def exC8_wf (i : ℕ) : Workflow :=
  { workflow_id := "shared_workflow"
    title := "W" ++ toString i
    description := ""
    task_type := "general"
    download_cost := 100
    execution_cost := 10
    similarity_score := mkRat 1 2 }

def exC8_subtasks : List Subtask :=
  [ { text := "first part", task_type := "general", weight := mkRat 9 10 },
    { text := "second part", task_type := "general", weight := mkRat 5 10 } ]

/-- A composite plan whose two subtasks map to two copies of the *same*
workflow id: the download cost must be charged once, the execution cost
twice. -/
def exC8_plan : SearchPlan :=
  { plan_type := "composite"
    workflows := [exC8_wf 0, exC8_wf 1]
    overall_score := mkRat 1 2
    subtasks := exC8_subtasks
    subtask_workflow_mapping := [(0,0), (1,1)] }

def exC8_dags : List ExecutionDAG :=
  (WorkflowRecomposer.recompose (fun _ _ => 0) exC8_subtasks exC8_plan 5).toOption.getD []

def exC8_dag : ExecutionDAG := exC8_dags.headD default

set_option maxRecDepth 100000 in
/-- Witness for C8 on the shared-workflow composite plan. -/
theorem claim_C8_witness :
    exC8_dag.total_download_cost = WorkflowRecomposer.specDownloadCost exC8_dag.nodes ∧
    exC8_dag.total_execution_cost = WorkflowRecomposer.specExecutionCost exC8_dag.nodes :=
  WorkflowRecomposer.claim_C8 (fun _ _ => 0) exC8_subtasks exC8_plan 5 exC8_dags exC8_dag
    (by decide) (by decide)

/-! ## Verification of `_topological_sort` (claims C1, C4, C10) -/

namespace WorkflowRecomposer

/-- Well-formedness of a node map, as the DAG builders and
`_infer_dependencies` produce it: distinct ids, duplicate-free edge lists,
edges only between existing nodes, no self-dependencies, and the two edge
encodings (`dependencies` / `children`) mutually consistent. -/
def NodesWF (nodes : List SubtaskNode) : Prop :=
  (nodeIds nodes).Nodup ∧
  (∀ n ∈ nodes, n.dependencies.Nodup) ∧
  (∀ n ∈ nodes, n.children.Nodup) ∧
  (∀ n ∈ nodes, ∀ d ∈ n.dependencies, d ∈ nodeIds nodes) ∧
  (∀ n ∈ nodes, ∀ c ∈ n.children, c ∈ nodeIds nodes) ∧
  (∀ n ∈ nodes, n.id ∉ n.dependencies) ∧
  (∀ n ∈ nodes, ∀ m ∈ nodes, (m.id ∈ n.dependencies ↔ n.id ∈ m.children))

theorem findNode?_sound {nodes : List SubtaskNode} {nid : String} {n : SubtaskNode}
    (h : findNode? nodes nid = some n) : n ∈ nodes ∧ n.id = nid := by
  refine ⟨List.mem_of_find?_eq_some h, ?_⟩
  have := List.find?_some h
  simpa using this

theorem findNode?_isSome {nodes : List SubtaskNode} {nid : String}
    (h : nid ∈ nodeIds nodes) : ∃ n, findNode? nodes nid = some n ∧ n ∈ nodes ∧ n.id = nid := by
  rcases List.mem_map.mp h with ⟨n, hn, hid⟩
  have : (findNode? nodes nid).isSome := by
    rw [findNode?, List.find?_isSome]
    exact ⟨n, hn, by simp [hid]⟩
  rcases Option.isSome_iff_exists.mp this with ⟨m, hm⟩
  exact ⟨m, hm, findNode?_sound hm⟩

theorem findNode?_eq_of_mem {nodes : List SubtaskNode} {n : SubtaskNode}
    (hnd : (nodeIds nodes).Nodup) (hn : n ∈ nodes) : findNode? nodes n.id = some n := by
  induction nodes with
  | nil => cases hn
  | cons m ms ih =>
    rcases List.mem_cons.mp hn with h | h
    · subst h
      simp [findNode?]
    · have hne : ¬ (m.id == n.id) := by
        intro hb
        have heq : m.id = n.id := by simpa using hb
        have : n.id ∈ nodeIds ms := List.mem_map.mpr ⟨n, h, rfl⟩
        rw [← heq] at this
        exact (List.nodup_cons.mp hnd).1 this
      have := ih (List.nodup_cons.mp hnd).2 h
      simpa [findNode?, List.find?_cons, hne] using this

theorem findNodeE_eq_of_mem {nodes : List SubtaskNode} {n : SubtaskNode}
    (hnd : (nodeIds nodes).Nodup) (hn : n ∈ nodes) : findNodeE nodes n.id = .ok n := by
  rw [findNodeE, findNode?_eq_of_mem hnd hn]

theorem nodeWeight_eq_of_mem {nodes : List SubtaskNode} {n : SubtaskNode}
    (hnd : (nodeIds nodes).Nodup) (hn : n ∈ nodes) : nodeWeight nodes n.id = n.weight := by
  rw [nodeWeight, findNode?_eq_of_mem hnd hn]
  rfl

theorem insDesc_perm {α : Type} (key : α → ℚ) (x : α) (l : List α) :
    List.Perm (insDesc key x l) (x :: l) := by
  induction l with
  | nil => simp [insDesc]
  | cons y ys ih =>
    by_cases h : key x ≤ key y
    · rw [insDesc, if_pos h]
      exact (List.Perm.cons y ih).trans (List.Perm.swap x y ys)
    · simp [insDesc, h]

theorem sortDesc_perm {α : Type} (key : α → ℚ) (l : List α) :
    List.Perm (sortDesc key l) l := by
  suffices h : ∀ acc : List α, List.Perm (l.foldl (fun acc x => insDesc key x acc) acc) (acc ++ l) by
    simpa [sortDesc] using h []
  induction l with
  | nil => intro acc; simp
  | cons x xs ih =>
    intro acc
    rw [List.foldl_cons]
    refine (ih (insDesc key x acc)).trans ?_
    have h1 : List.Perm (insDesc key x acc ++ xs) ((x :: acc) ++ xs) :=
      List.Perm.append_right xs (insDesc_perm key x acc)
    refine h1.trans ?_
    simpa using List.perm_middle.symm.trans (List.Perm.refl (acc ++ x :: xs))

theorem pyListRemove_eq_erase {x : String} {l : List String} (h : x ∈ l) :
    pyListRemove x l = .ok (l.erase x) := by
  induction l with
  | nil => cases h
  | cons y ys ih =>
    by_cases hxy : y = x
    · subst hxy
      simp [pyListRemove, List.erase_cons_head]
    · have hx : x ∈ ys := by
        rcases List.mem_cons.mp h with h2 | h2
        · exact absurd h2.symm hxy
        · exact h2
      rw [pyListRemove, if_neg hxy, ih hx]
      have : (y == x) = false := by simpa using hxy
      simp [List.erase_cons, this, bind, Except.bind]

/-- The in-degree the Kahn loop maintains for a node: its dependency count
minus the dependencies already sorted. -/
def degOf (sorted : List String) (n : SubtaskNode) : ℤ :=
  (n.dependencies.length : ℤ) - ((n.dependencies.filter (fun d => sorted.contains d)).length : ℤ)

/-- Termination measure of the Kahn loop: queue length plus the children
counts of all unsorted nodes. -/
def kahnMeasure (nodes : List SubtaskNode) (queue sorted : List String) : ℕ :=
  queue.length +
    ((nodes.filter (fun n => ¬ sorted.contains n.id)).map (fun n => n.children.length)).sum

/-- State invariant of the Kahn loop. -/
structure KInv (nodes : List SubtaskNode) (inDeg : List (String × ℤ))
    (queue sorted : List String) : Prop where
  hdeg : inDeg = nodes.map (fun n => (n.id, degOf sorted n))
  hsnd : sorted.Nodup
  hqnd : queue.Nodup
  hdisj : ∀ x ∈ sorted, x ∉ queue
  hssub : ∀ x ∈ sorted, x ∈ nodeIds nodes
  hqsub : ∀ x ∈ queue, x ∈ nodeIds nodes
  hzero : ∀ n ∈ nodes, ((∀ d ∈ n.dependencies, d ∈ sorted) ↔ (n.id ∈ sorted ∨ n.id ∈ queue))
  hresp : ∀ n ∈ nodes, n.id ∈ sorted → ∀ u ∈ n.dependencies,
    u ∈ sorted ∧ sorted.indexOf u < sorted.indexOf n.id

theorem degOf_zero_iff {sorted : List String} {n : SubtaskNode} :
    degOf sorted n = 0 ↔ ∀ d ∈ n.dependencies, d ∈ sorted := by
  unfold degOf
  have hle := List.length_filter_le (fun d => sorted.contains d) n.dependencies
  constructor
  · intro h
    have hlen : (n.dependencies.filter (fun d => sorted.contains d)).length =
        n.dependencies.length := by omega
    intro d hd
    have := (List.filter_length_eq_length.mp hlen) d hd
    simpa using this
  · intro h
    have hlen : n.dependencies.filter (fun d => sorted.contains d) = n.dependencies :=
      List.filter_eq_self.mpr (fun d hd => by simpa using h d hd)
    rw [hlen]
    omega

theorem alook_map_eq {nodes : List SubtaskNode} (hnd : (nodeIds nodes).Nodup)
    (f : SubtaskNode → ℤ) {n : SubtaskNode} (hn : n ∈ nodes) :
    alook (nodes.map (fun m => (m.id, f m))) n.id = .ok (f n) := by
  have hf : (nodes.map (fun m => (m.id, f m))).find? (fun p => p.1 == n.id) =
      (nodes.find? ((fun (p : String × ℤ) => p.1 == n.id) ∘ (fun m => (m.id, f m)))).map
        (fun m => (m.id, f m)) := List.find?_map _ _
  have hyp : ((fun (p : String × ℤ) => p.1 == n.id) ∘ (fun m => (m.id, f m))) =
      (fun m : SubtaskNode => m.id == n.id) := rfl
  rw [alook, hf, hyp]
  have := findNode?_eq_of_mem hnd hn
  rw [findNode?] at this
  rw [this]
  rfl

theorem aupd_map_eq (nodes : List SubtaskNode)
    (f : SubtaskNode → ℤ) (c : String) (v : ℤ) :
    aupd (nodes.map (fun m => (m.id, f m))) c v =
      nodes.map (fun m => (m.id, if m.id = c then v else f m)) := by
  rw [aupd, List.map_map]
  refine List.map_congr_left (fun n hn => ?_)
  by_cases h : n.id = c <;> simp [h]

theorem id_inj {nodes : List SubtaskNode} (hnd : (nodeIds nodes).Nodup)
    {n m : SubtaskNode} (hn : n ∈ nodes) (hm : m ∈ nodes) (h : n.id = m.id) : n = m := by
  have h1 := findNode?_eq_of_mem hnd hn
  have h2 := findNode?_eq_of_mem hnd hm
  rw [h] at h1
  rw [h1] at h2
  exact Option.some.inj h2

theorem kahnStep_fold_spec (nodes : List SubtaskNode) (hnd : (nodeIds nodes).Nodup) :
    ∀ (cs : List String) (f : SubtaskNode → ℤ) (acc : List String),
      (∀ c ∈ cs, c ∈ nodeIds nodes) → cs.Nodup →
      ∃ newQ : List String,
        cs.foldlM (fun st c => do
            let d ← alook st.1 c
            let st1 := aupd st.1 c (d - 1)
            pure (st1, if d - 1 = 0 then st.2 ++ [c] else st.2))
          ((nodes.map (fun n => (n.id, f n)), acc) :
            List (String × ℤ) × List String) =
          .ok (nodes.map (fun n => (n.id, if n.id ∈ cs then f n - 1 else f n)), acc ++ newQ) ∧
        newQ.Nodup ∧
        (∀ x, x ∈ newQ ↔ x ∈ cs ∧ ∃ n ∈ nodes, n.id = x ∧ f n = 1) := by
  intro cs
  induction cs with
  | nil =>
    intro f acc _ _
    exact ⟨[], by simp [List.foldlM_nil]; rfl, List.nodup_nil, by simp⟩
  | cons c cs' ih =>
    intro f acc hval hnd2
    obtain ⟨nc, hfind, hncmem, hncid⟩ := findNode?_isSome (hval c (List.mem_cons_self c cs'))
    have halook : alook (nodes.map (fun n => (n.id, f n))) c = .ok (f nc) := by
      rw [← hncid]
      exact alook_map_eq hnd f hncmem
    have hcnotin : c ∉ cs' := (List.nodup_cons.mp hnd2).1
    have hval2 : ∀ x ∈ cs', x ∈ nodeIds nodes := fun x hx => hval x (List.mem_cons_of_mem c hx)
    have hnd22 : cs'.Nodup := (List.nodup_cons.mp hnd2).2
    obtain ⟨newQ', hfold, hnq, hmemq⟩ :=
      ih (fun n => if n.id = c then f nc - 1 else f n)
        (if f nc - 1 = 0 then acc ++ [c] else acc) hval2 hnd22
    refine ⟨(if f nc - 1 = 0 then [c] else []) ++ newQ', ?_, ?_, ?_⟩
    · simp only [List.foldlM_cons, halook, aupd_map_eq, bind, Except.bind, pure, Except.pure]
      simp only [bind, Except.bind, pure, Except.pure] at hfold
      rw [hfold]
      congr 1
      refine Prod.ext ?_ ?_
      · dsimp only
        refine List.map_congr_left (fun n hn => ?_)
        by_cases hc : n.id = c
        · have hnin : n.id ∉ cs' := by rw [hc]; exact hcnotin
          have hfn : f n = f nc := by
            have := id_inj hnd hn hncmem (by rw [hc, hncid])
            rw [this]
          simp [hc, hnin, List.mem_cons, hfn, hcnotin]
        · simp [hc, List.mem_cons]
      · dsimp only
        split_ifs with h0 <;> simp
    · rw [List.nodup_append]
      refine ⟨by split_ifs <;> simp, hnq, ?_⟩
      intro x hx
      have hxc : x = c := by split_ifs at hx <;> simp_all
      subst hxc
      intro hxq
      exact hcnotin ((hmemq x).mp hxq).1
    · intro x
      rw [List.mem_append]
      constructor
      · intro h
        rcases h with h | h
        · have hx : x = c := by split_ifs at h <;> simp_all
          subst hx
          have h0 : f nc - 1 = 0 := by
            by_contra hne
            rw [if_neg hne] at h
            cases h
          exact ⟨List.mem_cons_self _ _, nc, hncmem, hncid, by omega⟩
        · obtain ⟨hxc, n, hnmem, hnid, hfn⟩ := (hmemq x).mp h
          have hnc : n.id ≠ c := by
            intro he
            rw [← hnid, he] at hxc
            exact hcnotin hxc
          refine ⟨List.mem_cons_of_mem c hxc, n, hnmem, hnid, ?_⟩
          simpa [hnc] using hfn
      · rintro ⟨hxcs, n, hnmem, hnid, hfn⟩
        rcases List.mem_cons.mp hxcs with h | h
        · left
          subst h
          have he : n = nc := id_inj hnd hnmem hncmem (by rw [hnid, hncid])
          subst he
          rw [hfn]
          simp
        · right
          refine (hmemq x).mpr ⟨h, n, hnmem, hnid, ?_⟩
          have hnc : n.id ≠ c := by
            intro he
            rw [← hnid, he] at h
            exact hcnotin h
          simp [hnc, hfn]

/-- `degOf` counts the dependencies not yet sorted. -/
theorem degOf_eq_filter_not (sorted : List String) (n : SubtaskNode) :
    degOf sorted n =
      ((n.dependencies.filter (fun d => !(sorted.contains d))).length : ℤ) := by
  have h := List.length_eq_length_filter_add (l := n.dependencies)
    (fun d => sorted.contains d)
  unfold degOf
  omega

theorem length_filter_contains_append {sorted : List String} {h : String}
    (hns : h ∉ sorted) :
    ∀ (l : List String), l.Nodup →
      (l.filter (fun d => (sorted ++ [h]).contains d)).length =
        (l.filter (fun d => sorted.contains d)).length + (if h ∈ l then 1 else 0) := by
  intro l
  induction l with
  | nil => intro _; simp
  | cons d ds ih =>
    intro hnd
    obtain ⟨hd1, hd2⟩ := List.nodup_cons.mp hnd
    rw [List.filter_cons, List.filter_cons]
    by_cases hdh : d = h
    · subst hdh
      rw [if_pos (show ((sorted ++ [d]).contains d) = true by simp),
        if_neg (show ¬ ((sorted.contains d) = true) by simpa using hns)]
      rw [List.length_cons, ih hd2]
      simp [hd1]
    · have h1 : ((sorted ++ [h]).contains d) = (sorted.contains d) := by
        simp [hdh]
      rw [h1]
      have h2 : (if h ∈ d :: ds then 1 else 0) = (if h ∈ ds then 1 else 0) := by
        have hiff : (h ∈ d :: ds) ↔ (h ∈ ds) := by
          constructor
          · intro hx
            rcases List.mem_cons.mp hx with he | he
            · exact absurd he.symm hdh
            · exact he
          · exact List.mem_cons_of_mem d
        simp [hiff]
      rw [h2]
      by_cases hc : (sorted.contains d) = true
      · rw [if_pos hc, if_pos hc, List.length_cons, List.length_cons, ih hd2]
        omega
      · rw [if_neg hc, if_neg hc]
        exact ih hd2

theorem degOf_append {sorted : List String} {h : String} (hns : h ∉ sorted)
    {n : SubtaskNode} (hnd : n.dependencies.Nodup) :
    degOf (sorted ++ [h]) n =
      degOf sorted n - (if h ∈ n.dependencies then 1 else 0) := by
  unfold degOf
  rw [length_filter_contains_append hns n.dependencies hnd]
  split_ifs <;> push_cast <;> ring

theorem degOf_one_missing {sorted : List String} {n : SubtaskNode}
    (h1 : degOf sorted n = 1) :
    ∃ u, u ∈ n.dependencies ∧ u ∉ sorted ∧
      ∀ d ∈ n.dependencies, d ∉ sorted → d = u := by
  rw [degOf_eq_filter_not] at h1
  have hl : (n.dependencies.filter (fun d => !(sorted.contains d))).length = 1 := by
    exact_mod_cast h1
  obtain ⟨u, hu⟩ := List.length_eq_one.mp hl
  have humem : u ∈ n.dependencies.filter (fun d => !(sorted.contains d)) := by
    rw [hu]; exact List.mem_singleton_self u
  refine ⟨u, List.mem_of_mem_filter humem, ?_, ?_⟩
  · have := List.of_mem_filter humem
    simpa using this
  · intro d hd hds
    have : d ∈ n.dependencies.filter (fun d => !(sorted.contains d)) :=
      List.mem_filter.mpr ⟨hd, by simpa using hds⟩
    rw [hu] at this
    simpa using this

theorem eq_singleton_of_nodup_all_eq {l : List String} {h : String}
    (hnd : l.Nodup) (hne : h ∈ l) (hall : ∀ x ∈ l, x = h) : l = [h] := by
  cases l with
  | nil => cases hne
  | cons a t =>
    cases t with
    | nil => rw [hall a (List.mem_cons_self _ _)]
    | cons b t2 =>
      exfalso
      have ha := hall a (List.mem_cons_self _ _)
      have hb := hall b (by simp)
      rw [ha, hb] at hnd
      simp at hnd

theorem degOf_eq_one_of {sorted : List String} {n : SubtaskNode} {h : String}
    (hnd : n.dependencies.Nodup) (hmem : h ∈ n.dependencies) (hns : h ∉ sorted)
    (hall : ∀ d ∈ n.dependencies, d ∉ sorted → d = h) :
    degOf sorted n = 1 := by
  rw [degOf_eq_filter_not]
  have hfe : n.dependencies.filter (fun d => !(sorted.contains d)) = [h] := by
    refine eq_singleton_of_nodup_all_eq (List.Nodup.filter _ hnd) ?_ ?_
    · exact List.mem_filter.mpr ⟨hmem, by simpa using hns⟩
    · intro x hx
      have h1 := List.mem_of_mem_filter hx
      have h2 := List.of_mem_filter hx
      exact hall x h1 (by simpa using h2)
  rw [hfe]
  rfl

/-- Removing one unsorted node from the unsorted-children sum of
`kahnMeasure`. -/
theorem childSum_append {node : SubtaskNode} {sorted : List String}
    (hns : node.id ∉ sorted) :
    ∀ (nodes : List SubtaskNode), (nodeIds nodes).Nodup → node ∈ nodes →
    ((nodes.filter (fun n => ¬ (sorted ++ [node.id]).contains n.id)).map
        (fun n => n.children.length)).sum + node.children.length =
      ((nodes.filter (fun n => ¬ sorted.contains n.id)).map
        (fun n => n.children.length)).sum := by
  intro nodes
  induction nodes with
  | nil => intro _ hmem; cases hmem
  | cons m ms ih =>
    intro hnd hmem
    have hnd' : (m.id :: nodeIds ms).Nodup := by simpa [nodeIds] using hnd
    obtain ⟨hh, ht⟩ := List.nodup_cons.mp hnd'
    rw [List.filter_cons, List.filter_cons]
    by_cases hmid : m.id = node.id
    · have hm : m = node := by
        rcases List.mem_cons.mp hmem with h | h
        · exact h.symm
        · exfalso
          apply hh
          rw [hmid]
          exact List.mem_map.mpr ⟨node, h, rfl⟩
      rw [if_neg (show ¬ ((decide ¬ (((sorted ++ [node.id]).contains m.id) = true)) = true) by
          simp [hmid]),
        if_pos (show (decide ¬ ((sorted.contains m.id) = true)) = true by simp [hmid, hns])]
      have hfeq : ms.filter (fun n => ¬ (sorted ++ [node.id]).contains n.id) =
          ms.filter (fun n => ¬ sorted.contains n.id) := by
        refine List.filter_congr (fun n hn => ?_)
        have hne : n.id ≠ node.id := by
          intro he
          rw [hmid] at hh
          exact hh (he ▸ List.mem_map.mpr ⟨n, hn, rfl⟩)
        simp [hne]
      rw [hfeq, hm]
      simp only [List.map_cons, List.sum_cons]
      omega
    · have hmem2 : node ∈ ms := by
        rcases List.mem_cons.mp hmem with h | h
        · exfalso
          exact hmid (by rw [h])
        · exact h
      have hp : (decide ¬ (((sorted ++ [node.id]).contains m.id) = true)) =
          (decide ¬ ((sorted.contains m.id) = true)) := by
        simp [hmid]
      rw [hp]
      have hrec := ih ht hmem2
      by_cases hc : (decide ¬ ((sorted.contains m.id) = true)) = true
      · rw [if_pos hc, if_pos hc]
        simp only [List.map_cons, List.sum_cons]
        omega
      · rw [if_neg hc, if_neg hc]
        exact hrec

/-- Master lemma for the Kahn loop: from an invariant state with enough fuel
the loop drains the queue and returns an order that still satisfies the
invariant. -/
theorem kahnLoop_spec {nodes : List SubtaskNode} (hwf : NodesWF nodes) :
    ∀ (fuel : ℕ) (inDeg : List (String × ℤ)) (queue sorted : List String),
      KInv nodes inDeg queue sorted →
      kahnMeasure nodes queue sorted < fuel →
      ∃ sorted' inDeg',
        kahnLoop nodes fuel inDeg queue sorted = .ok (sorted', [], inDeg') ∧
        KInv nodes inDeg' [] sorted' := by
  obtain ⟨hids, hdnd, hcnd, hdval, hcval, hself, hsym⟩ := hwf
  intro fuel
  induction fuel with
  | zero => intro inDeg queue sorted _ hm; omega
  | succ fuel ih =>
    intro inDeg queue sorted kinv hm
    cases hq : sortDesc (nodeWeight nodes) queue with
    | nil =>
      have hqe : queue = [] := by
        have hp := sortDesc_perm (nodeWeight nodes) queue
        rw [hq] at hp
        exact (hp.symm).eq_nil
      subst hqe
      refine ⟨sorted, inDeg, ?_, kinv⟩
      rw [kahnLoop, hq]
    | cons h rest =>
      have hperm : List.Perm (h :: rest) queue := by
        have hp := sortDesc_perm (nodeWeight nodes) queue
        rwa [hq] at hp
      have hhq : h ∈ queue := hperm.subset (List.mem_cons_self _ _)
      have hhr : (h :: rest).Nodup := hperm.symm.nodup kinv.hqnd
      obtain ⟨hhnr, hrnd⟩ := List.nodup_cons.mp hhr
      have hrsub : ∀ x ∈ rest, x ∈ queue :=
        fun x hx => hperm.subset (List.mem_cons_of_mem _ hx)
      obtain ⟨node, hfind, hnmem, hnid⟩ := findNode?_isSome (kinv.hqsub h hhq)
      have hfindE : findNodeE nodes h = .ok node := by rw [findNodeE, hfind]
      have hhns : h ∉ sorted := fun hs => kinv.hdisj h hs hhq
      have hchnd : node.children.Nodup := hcnd node hnmem
      have hchval : ∀ c ∈ node.children, c ∈ nodeIds nodes := hcval node hnmem
      obtain ⟨newQ, hfold, hnqnd, hnqmem⟩ :=
        kahnStep_fold_spec nodes hids node.children (degOf sorted) [] hchval hchnd
      rw [List.nil_append] at hfold
      have hstep : kahnStepChildren inDeg node.children =
          .ok (nodes.map (fun n => (n.id, if n.id ∈ node.children then degOf sorted n - 1
              else degOf sorted n)), newQ) := by
        rw [kahnStepChildren, kinv.hdeg]
        exact hfold
      have hdeg' : (nodes.map (fun n => (n.id, if n.id ∈ node.children then degOf sorted n - 1
          else degOf sorted n))) = nodes.map (fun n => (n.id, degOf (sorted ++ [h]) n)) := by
        refine List.map_congr_left (fun n hn => ?_)
        have hiff : n.id ∈ node.children ↔ h ∈ n.dependencies := by
          rw [← hnid]
          exact (hsym n hn node hnmem).symm
        rw [degOf_append hhns (hdnd n hn)]
        by_cases hc : n.id ∈ node.children
        · rw [if_pos hc, if_pos (hiff.mp hc)]
        · rw [if_neg hc, if_neg (fun hm2 => hc (hiff.mpr hm2))]
          simp
      have hnq_node : ∀ x ∈ newQ, ∃ m ∈ nodes, m.id = x ∧ degOf sorted m = 1 :=
        fun x hx => ((hnqmem x).mp hx).2
      have hnq_ch : ∀ x ∈ newQ, x ∈ node.children := fun x hx => ((hnqmem x).mp hx).1
      have hdeg0 : ∀ m ∈ nodes, (m.id ∈ sorted ∨ m.id ∈ queue) → degOf sorted m = 0 :=
        fun m hm2 hor => degOf_zero_iff.mpr ((kinv.hzero m hm2).mpr hor)
      have hnq_fresh : ∀ x ∈ newQ, x ∉ sorted ∧ x ∉ queue := by
        intro x hx
        obtain ⟨m, hm2, hmid, hm1⟩ := hnq_node x hx
        constructor
        · intro hs
          have := hdeg0 m hm2 (Or.inl (by rw [hmid]; exact hs))
          omega
        · intro hqq
          have := hdeg0 m hm2 (Or.inr (by rw [hmid]; exact hqq))
          omega
      have hh_nq : h ∉ newQ := by
        intro hx
        have hch := hnq_ch h hx
        have hsd : node.id ∈ node.dependencies :=
          (hsym node hnmem node hnmem).mpr (by rw [hnid]; exact hch)
        exact hself node hnmem hsd
      have hqsub' : ∀ x ∈ rest ++ newQ, x ∈ nodeIds nodes := by
        intro x hx
        rcases List.mem_append.mp hx with hx | hx
        · exact kinv.hqsub x (hrsub x hx)
        · exact hchval x (hnq_ch x hx)
      have hqueue_sub : ∀ x ∈ queue, x = h ∨ x ∈ rest :=
        fun x hx => List.mem_cons.mp (hperm.symm.subset hx)
      have kinv' : KInv nodes
          (nodes.map (fun n => (n.id, if n.id ∈ node.children then degOf sorted n - 1
            else degOf sorted n))) (rest ++ newQ) (sorted ++ [h]) := by
        refine ⟨hdeg', ?_, ?_, ?_, ?_, hqsub', ?_, ?_⟩
        · rw [List.nodup_append]
          exact ⟨kinv.hsnd, List.nodup_singleton h,
            fun x hx hx2 => hhns (List.mem_singleton.mp hx2 ▸ hx)⟩
        · rw [List.nodup_append]
          exact ⟨hrnd, hnqnd, fun x hx hxq => (hnq_fresh x hxq).2 (hrsub x hx)⟩
        · intro x hx
          rcases List.mem_append.mp hx with hx | hx
          · intro hcon
            rcases List.mem_append.mp hcon with hc | hc
            · exact kinv.hdisj x hx (hrsub x hc)
            · exact (hnq_fresh x hc).1 hx
          · have hxh : x = h := by simpa using hx
            subst hxh
            intro hcon
            rcases List.mem_append.mp hcon with hc | hc
            · exact hhnr hc
            · exact hh_nq hc
        · intro x hx
          rcases List.mem_append.mp hx with hx | hx
          · exact kinv.hssub x hx
          · have hxh : x = h := by simpa using hx
            subst hxh
            rw [← hnid]
            exact List.mem_map.mpr ⟨node, hnmem, rfl⟩
        · intro n hn
          constructor
          · intro hall
            by_cases hallS : ∀ d ∈ n.dependencies, d ∈ sorted
            · rcases (kinv.hzero n hn).mp hallS with hs | hqq
              · exact Or.inl (List.mem_append.mpr (Or.inl hs))
              · rcases hqueue_sub n.id hqq with he | hr
                · exact Or.inl (List.mem_append.mpr (Or.inr (by simp [he])))
                · exact Or.inr (List.mem_append.mpr (Or.inl hr))
            · push_neg at hallS
              obtain ⟨d, hd, hds⟩ := hallS
              have hdh : d = h := by
                rcases List.mem_append.mp (hall d hd) with hx | hx
                · exact absurd hx hds
                · simpa using hx
              subst hdh
              have hdeg1 : degOf sorted n = 1 := by
                refine degOf_eq_one_of (hdnd n hn) hd hds (fun u hu hus => ?_)
                rcases List.mem_append.mp (hall u hu) with hx | hx
                · exact absurd hx hus
                · simpa using hx
              have hnc : n.id ∈ node.children :=
                (hsym n hn node hnmem).mp (by rw [hnid]; exact hd)
              exact Or.inr (List.mem_append.mpr (Or.inr
                ((hnqmem n.id).mpr ⟨hnc, n, hn, rfl, hdeg1⟩)))
          · intro hor d hd
            have hallS : ∀ u ∈ n.dependencies, u ∈ sorted ∨ u = h := by
              rcases hor with hs | hqq
              · rcases List.mem_append.mp hs with hs | hs
                · intro u hu
                  exact Or.inl (((kinv.hzero n hn).mpr (Or.inl hs)) u hu)
                · have hnh : n.id = h := by simpa using hs
                  intro u hu
                  exact Or.inl (((kinv.hzero n hn).mpr (Or.inr (by rw [hnh]; exact hhq))) u hu)
              · rcases List.mem_append.mp hqq with hr | hnq
                · intro u hu
                  exact Or.inl (((kinv.hzero n hn).mpr (Or.inr (hrsub n.id hr))) u hu)
                · obtain ⟨hnc, m, hm2, hmid, hm1⟩ := (hnqmem n.id).mp hnq
                  have hmn : m = n := id_inj hids hm2 hn hmid
                  subst hmn
                  obtain ⟨u, hu, hus, huniq⟩ := degOf_one_missing hm1
                  have hhd : h ∈ m.dependencies := by
                    rw [← hnid]
                    exact (hsym m hn node hnmem).mpr hnc
                  have huh : u = h := (huniq h hhd hhns).symm
                  subst huh
                  intro v hv
                  by_cases hvs : v ∈ sorted
                  · exact Or.inl hvs
                  · exact Or.inr (huniq v hv hvs)
            rcases hallS d hd with hx | hx
            · exact List.mem_append.mpr (Or.inl hx)
            · exact List.mem_append.mpr (Or.inr (by simp [hx]))
        · intro n hn hns u hu
          rcases List.mem_append.mp hns with hs | hs
          · obtain ⟨hus, hidx⟩ := kinv.hresp n hn hs u hu
            refine ⟨List.mem_append.mpr (Or.inl hus), ?_⟩
            rw [List.indexOf_append_of_mem hus, List.indexOf_append_of_mem hs]
            exact hidx
          · have hnh : n.id = h := by simpa using hs
            have hall : ∀ d ∈ n.dependencies, d ∈ sorted :=
              (kinv.hzero n hn).mpr (Or.inr (by rw [hnh]; exact hhq))
            have hus := hall u hu
            refine ⟨List.mem_append.mpr (Or.inl hus), ?_⟩
            rw [List.indexOf_append_of_mem hus, hnh,
              List.indexOf_append_of_not_mem hhns]
            have := List.indexOf_lt_length.mpr hus
            simp
            omega
      have hm' : kahnMeasure nodes (rest ++ newQ) (sorted ++ [h]) < fuel := by
        have hql : (h :: rest).length = queue.length := hperm.length_eq
        have hnql : newQ.length ≤ node.children.length :=
          (List.subperm_of_subset hnqnd (fun x hx => hnq_ch x hx)).length_le
        have hcs := childSum_append (by rw [hnid]; exact hhns) nodes hids hnmem
        rw [hnid] at hcs
        unfold kahnMeasure at hm ⊢
        rw [List.length_append]
        simp only [List.length_cons] at hql
        omega
      obtain ⟨sorted', inDeg', hloop, hinv'⟩ := ih _ (rest ++ newQ) (sorted ++ [h]) kinv' hm'
      refine ⟨sorted', inDeg', ?_, hinv'⟩
      rw [kahnLoop, hq]
      simp only [bind, Except.bind, hfindE, hstep]
      exact hloop

/-- One full Kahn pass from a well-formed node map succeeds; the (possibly
partial) order is duplicate-free, covers exactly the nodes whose dependencies
it saturates, and respects every edge among its members. -/
theorem kahnRun_spec {nodes : List SubtaskNode} (hwf : NodesWF nodes) :
    ∃ sorted : List String, kahnRun nodes = .ok sorted ∧
      sorted.Nodup ∧ (∀ x ∈ sorted, x ∈ nodeIds nodes) ∧
      (∀ n ∈ nodes, ((∀ d ∈ n.dependencies, d ∈ sorted) ↔ n.id ∈ sorted)) ∧
      (∀ n ∈ nodes, n.id ∈ sorted → ∀ u ∈ n.dependencies,
        u ∈ sorted ∧ sorted.indexOf u < sorted.indexOf n.id) := by
  have hids := hwf.1
  have kinv0 : KInv nodes (nodes.map (fun n => (n.id, (n.dependencies.length : ℤ))))
      ((nodes.filter (fun n => n.dependencies.isEmpty)).map (fun n => n.id)) [] := by
    refine ⟨?_, List.nodup_nil, ?_, ?_, ?_, ?_, ?_, ?_⟩
    · refine List.map_congr_left (fun n _ => ?_)
      simp [degOf]
    · have hsub : ((nodes.filter (fun n => n.dependencies.isEmpty)).map (fun n => n.id)).Sublist
          (nodeIds nodes) := (List.filter_sublist nodes).map _
      exact hsub.nodup hids
    · intro x hx
      cases hx
    · intro x hx
      cases hx
    · intro x hx
      obtain ⟨m, hmf, rfl⟩ := List.mem_map.mp hx
      exact List.mem_map.mpr ⟨m, List.mem_of_mem_filter hmf, rfl⟩
    · intro n hn
      constructor
      · intro hall
        refine Or.inr (List.mem_map.mpr ⟨n, List.mem_filter.mpr ⟨hn, ?_⟩, rfl⟩)
        have hde : n.dependencies = [] :=
          List.eq_nil_iff_forall_not_mem.mpr (fun d hd => by cases hall d hd)
        simp [hde]
      · rintro (hs | hqq)
        · cases hs
        · obtain ⟨m, hmf, hmid⟩ := List.mem_map.mp hqq
          obtain ⟨hm2, hme⟩ := List.mem_filter.mp hmf
          have hmn : m = n := id_inj hids hm2 hn hmid
          subst hmn
          intro d hd
          rw [List.isEmpty_iff] at hme
          rw [hme] at hd
          cases hd
    · intro n _ hns
      cases hns
  have hm0 : kahnMeasure nodes
      ((nodes.filter (fun n => n.dependencies.isEmpty)).map (fun n => n.id)) []
      < nodes.length + totalChildren nodes + 1 := by
    have hfe : nodes.filter (fun n => ¬ ([] : List String).contains n.id) = nodes := by
      refine List.filter_eq_self.mpr (fun n _ => ?_)
      simp
    have hql : ((nodes.filter (fun n => n.dependencies.isEmpty)).map (fun n => n.id)).length
        ≤ nodes.length := by
      rw [List.length_map]
      exact List.length_filter_le _ _
    rw [kahnMeasure, hfe]
    rw [totalChildren] at *
    omega
  obtain ⟨sorted, inDeg', hloop, hinv⟩ :=
    kahnLoop_spec hwf (nodes.length + totalChildren nodes + 1) _ _ _ kinv0 hm0
  refine ⟨sorted, ?_, hinv.hsnd, hinv.hssub, ?_, fun n hn hns u hu => hinv.hresp n hn hns u hu⟩
  · rw [kahnRun]
    simp only [bind, Except.bind, hloop]
  · intro n hn
    have hz := hinv.hzero n hn
    simpa using hz

/-- The per-dependency step of the inner scan of
`_find_weakest_edge_in_cycle`, named so that every statement shares one
definition (it is definitionally the fold body of the source function, see
`findWeakestEdgeInCycle_eq`). -/
def weakestStepInner (nodes : List SubtaskNode) (child : SubtaskNode) (childId : String)
    (acc2 : Option ((String × String) × ℚ)) (parentId : String) :
    Option ((String × String) × ℚ) :=
  match findNode? nodes parentId with
  | none => acc2
  | some parent =>
    let strength := edgeStrength parent child
    match acc2 with
    | none => some ((parentId, childId), strength)
    | some (_, minS) =>
      if strength < minS then some ((parentId, childId), strength) else acc2

/-- The per-cycle-node step of `_find_weakest_edge_in_cycle`. -/
def weakestStepOuter (nodes : List SubtaskNode) (acc : Option ((String × String) × ℚ))
    (childId : String) : Except String (Option ((String × String) × ℚ)) := do
  let child ← findNodeE nodes childId
  pure (child.dependencies.foldl (weakestStepInner nodes child childId) acc)

theorem findWeakestEdgeInCycle_eq (nodes : List SubtaskNode) (cycleNodes : List String) :
    findWeakestEdgeInCycle nodes cycleNodes =
      (do
        let r ← cycleNodes.foldlM (weakestStepOuter nodes) none
        Except.ok (r.map (fun p => p.1))) := rfl

/-- The inner dependency scan of `_find_weakest_edge_in_cycle`: sound
accumulators stay sound, a `some` accumulator stays `some`, and a non-empty
resolvable dependency list forces a `some` result. -/
theorem weakestInner_spec {nodes : List SubtaskNode} {child : SubtaskNode}
    (hch : child ∈ nodes) {childId : String} (hcid : child.id = childId) :
    ∀ (deps : List String) (acc : Option ((String × String) × ℚ)),
      (∀ d ∈ deps, d ∈ child.dependencies) →
      (∀ pq, acc = some pq → ∃ ch ∈ nodes, ch.id = pq.1.2 ∧ pq.1.1 ∈ ch.dependencies) →
      (∀ pq, (deps.foldl (weakestStepInner nodes child childId) acc) = some pq →
          ∃ ch ∈ nodes, ch.id = pq.1.2 ∧ pq.1.1 ∈ ch.dependencies) ∧
      (acc.isSome → (deps.foldl (weakestStepInner nodes child childId) acc).isSome) ∧
      ((deps ≠ [] ∧ ∀ d ∈ deps, d ∈ nodeIds nodes) →
        (deps.foldl (weakestStepInner nodes child childId) acc).isSome) := by
  intro deps
  induction deps with
  | nil =>
    intro acc _ hsound
    refine ⟨hsound, fun h => h, fun h => absurd rfl h.1⟩
  | cons p ps ih =>
    intro acc hdeps hsound
    have hpd : p ∈ child.dependencies := hdeps p (List.mem_cons_self _ _)
    have hdeps' : ∀ d ∈ ps, d ∈ child.dependencies :=
      fun d hd => hdeps d (List.mem_cons_of_mem _ hd)
    cases hfp : findNode? nodes p with
    | none =>
      have hstep : weakestStepInner nodes child childId acc p = acc := by
        rw [weakestStepInner, hfp]
      rw [List.foldl_cons, hstep]
      obtain ⟨ihs, ihsome, _⟩ := ih acc hdeps' hsound
      refine ⟨ihs, ihsome, ?_⟩
      rintro ⟨_, hval⟩
      obtain ⟨parent, hfp2, _, _⟩ := findNode?_isSome (hval p (List.mem_cons_self _ _))
      rw [hfp] at hfp2
      cases hfp2
    | some parent =>
      have hsnew : ∀ pq, (some ((p, childId), edgeStrength parent child)) = some pq →
          ∃ ch ∈ nodes, ch.id = pq.1.2 ∧ pq.1.1 ∈ ch.dependencies := by
        intro pq hpq
        simp only [Option.some.injEq] at hpq
        subst hpq
        exact ⟨child, hch, hcid, hpd⟩
      cases acc with
      | none =>
        have hstep : weakestStepInner nodes child childId none p =
            some ((p, childId), edgeStrength parent child) := by
          rw [weakestStepInner, hfp]
        rw [List.foldl_cons, hstep]
        obtain ⟨ihs, ihsome, _⟩ :=
          ih (some ((p, childId), edgeStrength parent child)) hdeps' hsnew
        exact ⟨ihs, fun _ => ihsome (by simp), fun _ => ihsome (by simp)⟩
      | some pm =>
        obtain ⟨⟨pm1, pm2⟩, pms⟩ := pm
        by_cases hlt : edgeStrength parent child < pms
        · have hstep : weakestStepInner nodes child childId (some ((pm1, pm2), pms)) p =
              some ((p, childId), edgeStrength parent child) := by
            rw [weakestStepInner, hfp]
            simp only [if_pos hlt]
          rw [List.foldl_cons, hstep]
          obtain ⟨ihs, ihsome, _⟩ :=
            ih (some ((p, childId), edgeStrength parent child)) hdeps' hsnew
          exact ⟨ihs, fun _ => ihsome (by simp), fun _ => ihsome (by simp)⟩
        · have hstep : weakestStepInner nodes child childId (some ((pm1, pm2), pms)) p =
              some ((pm1, pm2), pms) := by
            rw [weakestStepInner, hfp]
            simp only [if_neg hlt]
          rw [List.foldl_cons, hstep]
          obtain ⟨ihs, ihsome, _⟩ := ih (some ((pm1, pm2), pms)) hdeps' hsound
          exact ⟨ihs, fun _ => ihsome (by simp), fun _ => ihsome (by simp)⟩

/-- The outer cycle-node scan of `_find_weakest_edge_in_cycle`, from a sound
accumulator: it runs without error, the result is sound, and any cycle node
with a non-empty dependency list forces a `some` result (under a well-formed
map every dependency resolves). -/
theorem weakestOuter_spec {nodes : List SubtaskNode} (hwf : NodesWF nodes) :
    ∀ (cs : List String) (acc : Option ((String × String) × ℚ)),
      (∀ c ∈ cs, c ∈ nodeIds nodes) →
      (∀ pq, acc = some pq → ∃ ch ∈ nodes, ch.id = pq.1.2 ∧ pq.1.1 ∈ ch.dependencies) →
      ∃ r, cs.foldlM (weakestStepOuter nodes) acc = .ok r ∧
        (∀ pq, r = some pq → ∃ ch ∈ nodes, ch.id = pq.1.2 ∧ pq.1.1 ∈ ch.dependencies) ∧
        (acc.isSome → r.isSome) ∧
        (∀ c0 ∈ cs, (∀ m ∈ nodes, m.id = c0 → m.dependencies ≠ []) → r.isSome) := by
  intro cs
  induction cs with
  | nil =>
    intro acc _ hsound
    exact ⟨acc, rfl, hsound, fun h => h, fun c0 hc0 => absurd hc0 (List.not_mem_nil c0)⟩
  | cons c cs' ih =>
    intro acc hval hsound
    obtain ⟨child, hfind, hchmem, hchid⟩ := findNode?_isSome (hval c (List.mem_cons_self _ _))
    have hfindE : findNodeE nodes c = .ok child := by rw [findNodeE, hfind]
    obtain ⟨hs1, hsome1, hres1⟩ :=
      weakestInner_spec hchmem hchid child.dependencies acc (fun d hd => hd) hsound
    obtain ⟨r, hr, hrs, hrsome, hrres⟩ :=
      ih (child.dependencies.foldl (weakestStepInner nodes child c) acc)
        (fun d hd => hval d (List.mem_cons_of_mem _ hd)) hs1
    refine ⟨r, ?_, hrs, fun ha => hrsome (hsome1 ha), ?_⟩
    · rw [List.foldlM_cons, weakestStepOuter]
      simp only [hfindE, bind, Except.bind, pure, Except.pure]
      exact hr
    · intro c0 hc0 hd0
      rcases List.mem_cons.mp hc0 with he | he
      · subst he
        refine hrsome (hres1 ⟨hd0 child hchmem hchid, ?_⟩)
        exact fun d hd => hwf.2.2.2.1 child hchmem d hd
      · exact hrres c0 he hd0

/-- In a well-formed map, when every cycle node has a non-empty dependency
list, `_find_weakest_edge_in_cycle` returns an actual edge of the map: the
`break`/edge-clearing branch of the repair loop is unreachable. -/
theorem findWeakestEdgeInCycle_spec {nodes : List SubtaskNode} (hwf : NodesWF nodes)
    {cycleNodes : List String} (hsub : ∀ c ∈ cycleNodes, c ∈ nodeIds nodes)
    (hne : cycleNodes ≠ [])
    (hdeps : ∀ c ∈ cycleNodes, ∀ m ∈ nodes, m.id = c → m.dependencies ≠ []) :
    ∃ p c, findWeakestEdgeInCycle nodes cycleNodes = .ok (some (p, c)) ∧
      ∃ child ∈ nodes, child.id = c ∧ p ∈ child.dependencies := by
  obtain ⟨r, hr, hrs, _, hrres⟩ :=
    weakestOuter_spec hwf cycleNodes none hsub (fun pq hpq => by cases hpq)
  cases cycleNodes with
  | nil => exact absurd rfl hne
  | cons c0 cs' =>
    have hrsome : r.isSome :=
      hrres c0 (List.mem_cons_self _ _) (hdeps c0 (List.mem_cons_self _ _))
    obtain ⟨pq, hpq⟩ := Option.isSome_iff_exists.mp hrsome
    obtain ⟨child, hch, hcid, hpd⟩ := hrs pq hpq
    refine ⟨pq.1.1, pq.1.2, ?_, child, hch, hcid, hpd⟩
    rw [findWeakestEdgeInCycle_eq]
    simp only [bind, Except.bind, hr, hpq]
    rfl

theorem nodeIds_updateNode {nodes : List SubtaskNode} {nid : String}
    {f : SubtaskNode → SubtaskNode} (hf : ∀ n, (f n).id = n.id) :
    nodeIds (updateNode nodes nid f) = nodeIds nodes := by
  rw [nodeIds, updateNode, List.map_map, nodeIds]
  refine List.map_congr_left (fun n _ => ?_)
  by_cases h : n.id == nid <;> simp [Function.comp, h, hf]

theorem updateNode_eq_map (nodes : List SubtaskNode) (nid : String)
    (f : SubtaskNode → SubtaskNode) :
    updateNode nodes nid f = nodes.map (fun n => if n.id = nid then f n else n) := by
  rw [updateNode]
  refine List.map_congr_left (fun n _ => ?_)
  by_cases h : n.id = nid <;> simp [h]

/-- Removing an existing edge `p → c` succeeds and preserves well-formedness
and the id set. -/
theorem removeEdgeE_spec {nodes : List SubtaskNode} (hwf : NodesWF nodes)
    {p c : String} {child : SubtaskNode} (hch : child ∈ nodes) (hcid : child.id = c)
    (hp : p ∈ child.dependencies) :
    ∃ nodes2, removeEdgeE nodes p c = .ok nodes2 ∧ NodesWF nodes2 ∧
      nodeIds nodes2 = nodeIds nodes := by
  obtain ⟨hids, hdnd, hcnd, hdval, hcval, hself, hsym⟩ := hwf
  have hpc : p ≠ c := by
    intro he
    exact hself child hch (by rw [hcid, ← he]; exact hp)
  have hfE : findNodeE nodes c = .ok child := by
    rw [← hcid]
    exact findNodeE_eq_of_mem hids hch
  have hrm1 : pyListRemove p child.dependencies = .ok (child.dependencies.erase p) :=
    pyListRemove_eq_erase hp
  obtain ⟨parent, hfindp, hpmem, hpid⟩ := findNode?_isSome (hdval child hch p hp)
  have hcinp : c ∈ parent.children := by
    rw [← hcid]
    exact (hsym child hch parent hpmem).mp (by rw [hpid]; exact hp)
  have hids1 : nodeIds (updateNode nodes c
      (fun n => { n with dependencies := child.dependencies.erase p })) = nodeIds nodes :=
    nodeIds_updateNode (fun n => rfl)
  have hpmem1 : parent ∈ updateNode nodes c
      (fun n => { n with dependencies := child.dependencies.erase p }) := by
    rw [updateNode]
    refine List.mem_map.mpr ⟨parent, hpmem, ?_⟩
    have hb : (parent.id == c) = false := by
      rw [hpid]
      exact beq_eq_false_iff_ne.mpr hpc
    simp [hb]
  have hfE1 : findNodeE (updateNode nodes c
      (fun n => { n with dependencies := child.dependencies.erase p })) p = .ok parent := by
    have h0 := findNodeE_eq_of_mem (by rw [hids1]; exact hids) hpmem1
    rwa [hpid] at h0
  have hrm2 : pyListRemove c parent.children = .ok (parent.children.erase c) :=
    pyListRemove_eq_erase hcinp
  refine ⟨updateNode (updateNode nodes c
      (fun n => { n with dependencies := child.dependencies.erase p })) p
      (fun n => { n with children := parent.children.erase c }), ?_, ?_, ?_⟩
  · rw [removeEdgeE]
    simp only [bind, Except.bind, hfE, hrm1, hfE1, hrm2]
  · -- well-formedness of the doubly-updated map
    have hchid2 : ∀ n ∈ nodes, n.id = c → n = child :=
      fun n hn he => id_inj hids hn hch (by rw [he, hcid])
    have hparid2 : ∀ n ∈ nodes, n.id = p → n = parent :=
      fun n hn he => id_inj hids hn hpmem (by rw [he, hpid])
    rw [updateNode_eq_map, updateNode_eq_map, List.map_map]
    have hshape : ∀ n ∈ nodes,
        (((fun n0 : SubtaskNode =>
            if n0.id = p then { n0 with children := parent.children.erase c } else n0) ∘
          (fun n0 : SubtaskNode =>
            if n0.id = c then { n0 with dependencies := child.dependencies.erase p } else n0))
          n).id = n.id ∧
        (((fun n0 : SubtaskNode =>
            if n0.id = p then { n0 with children := parent.children.erase c } else n0) ∘
          (fun n0 : SubtaskNode =>
            if n0.id = c then { n0 with dependencies := child.dependencies.erase p } else n0))
          n).dependencies =
          (if n.id = c then child.dependencies.erase p else n.dependencies) ∧
        (((fun n0 : SubtaskNode =>
            if n0.id = p then { n0 with children := parent.children.erase c } else n0) ∘
          (fun n0 : SubtaskNode =>
            if n0.id = c then { n0 with dependencies := child.dependencies.erase p } else n0))
          n).children =
          (if n.id = p then parent.children.erase c else n.children) := by
      intro n _
      simp only [Function.comp]
      by_cases h1 : n.id = c
      · have h2 : ¬ n.id = p := by rw [h1]; exact fun he => hpc he.symm
        rw [if_pos h1, if_pos h1]
        rw [if_neg (show ¬ ({ n with dependencies := child.dependencies.erase p
            } : SubtaskNode).id = p from h2)]
        exact ⟨rfl, rfl, by rw [if_neg h2]⟩
      · rw [if_neg h1, if_neg h1]
        by_cases h2 : n.id = p
        · rw [if_pos h2, if_pos h2]
          exact ⟨rfl, rfl, rfl⟩
        · rw [if_neg h2, if_neg h2]
          exact ⟨rfl, rfl, rfl⟩
    have hids2 : nodeIds (nodes.map
        ((fun n0 : SubtaskNode =>
            if n0.id = p then { n0 with children := parent.children.erase c } else n0) ∘
          (fun n0 : SubtaskNode =>
            if n0.id = c then { n0 with dependencies := child.dependencies.erase p } else n0)))
        = nodeIds nodes := by
      rw [nodeIds, List.map_map, nodeIds]
      exact List.map_congr_left (fun n hn => (hshape n hn).1)
    refine ⟨by rw [hids2]; exact hids, ?_, ?_, ?_, ?_, ?_, ?_⟩
    · intro m hm
      obtain ⟨n, hn, he⟩ := List.mem_map.mp hm
      subst he
      rw [(hshape n hn).2.1]
      split_ifs
      · exact (hdnd child hch).erase p
      · exact hdnd n hn
    · intro m hm
      obtain ⟨n, hn, he⟩ := List.mem_map.mp hm
      subst he
      rw [(hshape n hn).2.2]
      split_ifs
      · exact (hcnd parent hpmem).erase c
      · exact hcnd n hn
    · intro m hm d hd
      obtain ⟨n, hn, he⟩ := List.mem_map.mp hm
      subst he
      rw [hids2]
      rw [(hshape n hn).2.1] at hd
      split_ifs at hd
      · exact hdval child hch d (List.mem_of_mem_erase hd)
      · exact hdval n hn d hd
    · intro m hm d hd
      obtain ⟨n, hn, he⟩ := List.mem_map.mp hm
      subst he
      rw [hids2]
      rw [(hshape n hn).2.2] at hd
      split_ifs at hd
      · exact hcval parent hpmem d (List.mem_of_mem_erase hd)
      · exact hcval n hn d hd
    · intro m hm hdm
      obtain ⟨n, hn, he⟩ := List.mem_map.mp hm
      subst he
      rw [(hshape n hn).1, (hshape n hn).2.1] at hdm
      split_ifs at hdm with h1
      · have h3 : n.id ∈ child.dependencies := List.mem_of_mem_erase hdm
        rw [hchid2 n hn h1] at h3
        exact hself child hch h3
      · exact hself n hn hdm
    · intro m1 hm1 m2 hm2
      obtain ⟨n1, hn1, he1⟩ := List.mem_map.mp hm1
      obtain ⟨n2, hn2, he2⟩ := List.mem_map.mp hm2
      subst he1
      subst he2
      rw [(hshape n1 hn1).1, (hshape n2 hn2).1, (hshape n1 hn1).2.1, (hshape n2 hn2).2.2]
      have horig := hsym n1 hn1 n2 hn2
      by_cases h1 : n1.id = c
      · have hn1c : n1 = child := hchid2 n1 hn1 h1
        rw [if_pos h1]
        by_cases h2 : n2.id = p
        · rw [if_pos h2]
          constructor
          · intro hmm
            exact absurd h2 ((List.Nodup.mem_erase_iff (hdnd child hch)).mp hmm).1
          · intro hmm
            exact absurd h1 ((List.Nodup.mem_erase_iff (hcnd parent hpmem)).mp hmm).1
        · rw [if_neg h2, ← hn1c,
            List.Nodup.mem_erase_iff (hdnd n1 hn1)]
          constructor
          · rintro ⟨_, hmm⟩
            exact horig.mp hmm
          · intro hmm
            exact ⟨h2, horig.mpr hmm⟩
      · rw [if_neg h1]
        by_cases h2 : n2.id = p
        · have hn2p : n2 = parent := hparid2 n2 hn2 h2
          rw [if_pos h2, ← hn2p,
            List.Nodup.mem_erase_iff (hcnd n2 hn2)]
          constructor
          · intro hmm
            exact ⟨h1, horig.mp hmm⟩
          · rintro ⟨_, hmm⟩
            exact horig.mpr hmm
        · rw [if_neg h2]
          exact horig
  · rw [@nodeIds_updateNode (updateNode nodes c
        (fun n => { n with dependencies := child.dependencies.erase p })) p
        (fun n => { n with children := parent.children.erase c }) (fun n => rfl), hids1]

/-- The repair loop of `_topological_sort`: it never raises, preserves
well-formedness and the id set, and when it returns an order from inside the
loop that order is a complete, edge-respecting topological order. -/
theorem topoAttempts_spec :
    ∀ (k : ℕ) (nodes : List SubtaskNode), NodesWF nodes →
    ∃ ns opt, topoAttempts nodes k = .ok (ns, opt) ∧ NodesWF ns ∧
      nodeIds ns = nodeIds nodes ∧
      (∀ sorted, opt = some sorted →
        sorted.Perm (nodeIds ns) ∧
        ∀ n ∈ ns, ∀ u ∈ n.dependencies, sorted.indexOf u < sorted.indexOf n.id) := by
  intro k
  induction k with
  | zero =>
    intro nodes hwf
    exact ⟨nodes, none, rfl, hwf, rfl, fun s hs => by cases hs⟩
  | succ k ih =>
    intro nodes hwf
    obtain ⟨sorted, hrun, hsnd, hssub, hzero, hresp⟩ := kahnRun_spec hwf
    by_cases hlen : sorted.length = nodes.length
    · refine ⟨nodes, some sorted, ?_, hwf, rfl, ?_⟩
      · rw [topoAttempts]
        simp only [bind, Except.bind, hrun, if_pos hlen]
      · intro s hs
        obtain rfl : sorted = s := Option.some.inj hs
        have hperm : sorted.Perm (nodeIds nodes) := by
          refine (List.subperm_of_subset hsnd hssub).perm_of_length_le ?_
          rw [nodeIds, List.length_map]
          omega
        refine ⟨hperm, ?_⟩
        intro n hn u hu
        have hmem : n.id ∈ sorted := hperm.mem_iff.mpr (List.mem_map.mpr ⟨n, hn, rfl⟩)
        exact (hresp n hn hmem u hu).2
    · set cycleNodes := (nodeIds nodes).filter (fun nid => ¬ sorted.contains nid)
        with hcyc
      have hcsub : ∀ c0 ∈ cycleNodes, c0 ∈ nodeIds nodes :=
        fun c0 hc0 => List.mem_of_mem_filter hc0
      have hcne : cycleNodes ≠ [] := by
        intro he
        have hsubn : ∀ x ∈ nodeIds nodes, x ∈ sorted := by
          intro x hx
          by_contra hxs
          have hxc : x ∈ cycleNodes := List.mem_filter.mpr ⟨hx, by simpa using hxs⟩
          rw [he] at hxc
          cases hxc
        have h1 := (List.subperm_of_subset hwf.1 hsubn).length_le
        have h2 := (List.subperm_of_subset hsnd hssub).length_le
        rw [nodeIds, List.length_map] at h1 h2
        omega
      have hcdeps : ∀ c0 ∈ cycleNodes, ∀ m ∈ nodes, m.id = c0 → m.dependencies ≠ [] := by
        intro c0 hc0 m hm hmid hde
        have hns : c0 ∉ sorted := by
          have h3 := List.of_mem_filter hc0
          simpa using h3
        have h4 : m.id ∈ sorted := (hzero m hm).mp (by rw [hde]; intro d hd; cases hd)
        rw [hmid] at h4
        exact hns h4
      obtain ⟨pe, ce, hwe, childe, hchm, hchid, hpd⟩ :=
        findWeakestEdgeInCycle_spec hwf hcsub hcne hcdeps
      obtain ⟨nodes2, hrem, hwf2, hids2⟩ := removeEdgeE_spec hwf hchm hchid hpd
      obtain ⟨ns, opt, hta, hwf3, hids3, hopt⟩ := ih nodes2 hwf2
      refine ⟨ns, opt, ?_, hwf3, by rw [hids3, hids2], hopt⟩
      rw [topoAttempts]
      simp only [bind, Except.bind, hrun, if_neg hlen, ← hcyc, hwe, hrem]
      exact hta

/-- `_topological_sort` from a well-formed map: never raises, keeps the map
well-formed with the same ids, and the returned order is a permutation of the
node ids that either respects every remaining edge or is the pure
descending-weight fallback. -/
theorem topological_sort_spec {nodes : List SubtaskNode} (hwf : NodesWF nodes) :
    ∃ ns order, topological_sort nodes = .ok (ns, order) ∧ NodesWF ns ∧
      nodeIds ns = nodeIds nodes ∧ List.Perm order (nodeIds nodes) ∧
      ((∀ n ∈ ns, ∀ u ∈ n.dependencies, order.indexOf u < order.indexOf n.id) ∨
        order = sortDesc (nodeWeight ns) (nodeIds ns)) := by
  obtain ⟨ns, opt, hta, hwf2, hids2, hopt⟩ := topoAttempts_spec 5 nodes hwf
  cases opt with
  | some sorted =>
    obtain ⟨hperm, hresp⟩ := hopt sorted rfl
    refine ⟨ns, sorted, ?_, hwf2, hids2, by rw [← hids2]; exact hperm, Or.inl hresp⟩
    rw [topological_sort]
    simp only [bind, Except.bind, hta]
  | none =>
    obtain ⟨sorted2, hrun2, hsnd2, hssub2, hzero2, hresp2⟩ := kahnRun_spec hwf2
    by_cases hlen : sorted2.length = ns.length
    · have hperm : sorted2.Perm (nodeIds ns) := by
        refine (List.subperm_of_subset hsnd2 hssub2).perm_of_length_le ?_
        rw [nodeIds, List.length_map]
        omega
      refine ⟨ns, sorted2, ?_, hwf2, hids2, by rw [← hids2]; exact hperm, Or.inl ?_⟩
      · rw [topological_sort]
        simp only [bind, Except.bind, hta, hrun2, if_pos hlen]
      · intro n hn u hu
        have hmem : n.id ∈ sorted2 := hperm.mem_iff.mpr (List.mem_map.mpr ⟨n, hn, rfl⟩)
        exact (hresp2 n hn hmem u hu).2
    · refine ⟨ns, sortDesc (nodeWeight ns) (nodeIds ns), ?_, hwf2, hids2, ?_, Or.inr rfl⟩
      · rw [topological_sort]
        simp only [bind, Except.bind, hta, hrun2, if_neg hlen]
      · rw [← hids2]
        exact sortDesc_perm (nodeWeight ns) (nodeIds ns)

theorem getElem?_some_lt {α : Type} {l : List α} {i : ℕ} {x : α} (h : l[i]? = some x) :
    i < l.length := by
  rcases Nat.lt_or_ge i l.length with h2 | h2
  · exact h2
  · rw [List.getElem?_eq_none h2] at h
    cases h

/-- On a map with distinct ids, `list.set` at the index of a node is the
id-keyed dict update. -/
theorem set_eq_updateNode :
    ∀ (nodes : List SubtaskNode) (i : ℕ) (node node' : SubtaskNode),
    (nodeIds nodes).Nodup → nodes[i]? = some node →
    nodes.set i node' = updateNode nodes node.id (fun _ => node') := by
  intro nodes
  induction nodes with
  | nil =>
    intro i node node' _ hi
    cases i <;> cases hi
  | cons m ms ih =>
    intro i node node' hnd hi
    have hnd' : (m.id :: nodeIds ms).Nodup := by simpa [nodeIds] using hnd
    obtain ⟨hh, ht⟩ := List.nodup_cons.mp hnd'
    cases i with
    | zero =>
      have hm : m = node := by simpa using hi
      subst hm
      rw [List.set_cons_zero, updateNode, List.map_cons]
      rw [if_pos (beq_self_eq_true m.id)]
      congr 1
      have hcong : ∀ n ∈ ms, (if n.id == m.id then node' else n) = n := by
        intro n hn
        have hne : (n.id == m.id) = false := by
          refine beq_eq_false_iff_ne.mpr (fun he => hh ?_)
          rw [← he]
          exact List.mem_map.mpr ⟨n, hn, rfl⟩
        simp [hne]
      rw [List.map_congr_left hcong]
      exact (List.map_id ms).symm
    | succ i' =>
      have hi' : ms[i']? = some node := by simpa using hi
      rw [List.set_cons_succ, updateNode, List.map_cons]
      have hmne : (m.id == node.id) = false := by
        refine beq_eq_false_iff_ne.mpr (fun he => hh ?_)
        rw [he]
        exact List.mem_map.mpr ⟨node, List.getElem?_mem hi', rfl⟩
      rw [hmne, ih i' node node' ht hi', updateNode]
      simp

/-- Variant of `nodeIds_updateNode` requiring id preservation only at the
updated key. -/
theorem nodeIds_updateNode_key {nodes : List SubtaskNode} {nid : String}
    {f : SubtaskNode → SubtaskNode} (hf : ∀ n ∈ nodes, n.id = nid → (f n).id = n.id) :
    nodeIds (updateNode nodes nid f) = nodeIds nodes := by
  rw [nodeIds, updateNode, List.map_map, nodeIds]
  refine List.map_congr_left (fun n hn => ?_)
  by_cases h : n.id = nid
  · simp [Function.comp, h, hf n hn h]
  · simp [Function.comp, h]

/-- Adding an inferred edge `parent → node` (rule 1 or rule 2 of
`_infer_dependencies`) preserves well-formedness and the id set. -/
theorem addEdge_wf {nodes : List SubtaskNode} (hwf : NodesWF nodes)
    {i j : ℕ} {node parent : SubtaskNode}
    (hi : nodes[i]? = some node) (hj : nodes[j]? = some parent) (hij : i ≠ j)
    (hguard : parent.id ∉ node.dependencies) :
    NodesWF ((nodes.set i { node with dependencies := node.dependencies ++ [parent.id] }).set j
      { parent with children := parent.children ++ [node.id] }) ∧
    nodeIds ((nodes.set i { node with dependencies := node.dependencies ++ [parent.id] }).set j
      { parent with children := parent.children ++ [node.id] }) = nodeIds nodes := by
  obtain ⟨hids, hdnd, hcnd, hdval, hcval, hself, hsym⟩ := hwf
  have hnmem : node ∈ nodes := List.getElem?_mem hi
  have hpmem : parent ∈ nodes := List.getElem?_mem hj
  have hne : node.id ≠ parent.id := by
    intro he
    have hnp : node = parent := id_inj hids hnmem hpmem he
    have hil : i < nodes.length := getElem?_some_lt hi
    have hjl : j < nodes.length := getElem?_some_lt hj
    have hgi : nodes[i] = node := by
      have := List.getElem?_eq_getElem hil
      rw [hi] at this
      exact (Option.some.inj this).symm
    have hgj : nodes[j] = parent := by
      have := List.getElem?_eq_getElem hjl
      rw [hj] at this
      exact (Option.some.inj this).symm
    have hnodup : nodes.Nodup := List.Nodup.of_map _ hids
    exact hij ((List.Nodup.getElem_inj_iff hnodup).mp (by rw [hgi, hgj, hnp]))
  have hnchild : node.id ∉ parent.children :=
    fun hc => hguard ((hsym node hnmem parent hpmem).mpr hc)
  have hset1 : nodes.set i { node with dependencies := node.dependencies ++ [parent.id] } =
      updateNode nodes node.id
        (fun _ => { node with dependencies := node.dependencies ++ [parent.id] }) :=
    set_eq_updateNode nodes i node _ hids hi
  have hids1 : nodeIds (nodes.set i
      { node with dependencies := node.dependencies ++ [parent.id] }) = nodeIds nodes := by
    rw [hset1]
    exact nodeIds_updateNode_key (fun n _ he => by rw [he])
  have hj1 : (nodes.set i
      { node with dependencies := node.dependencies ++ [parent.id] })[j]? = some parent := by
    rw [List.getElem?_set_ne hij]
    exact hj
  have hset2 : (nodes.set i
      { node with dependencies := node.dependencies ++ [parent.id] }).set j
        { parent with children := parent.children ++ [node.id] } =
      updateNode (nodes.set i { node with dependencies := node.dependencies ++ [parent.id] })
        parent.id (fun _ => { parent with children := parent.children ++ [node.id] }) :=
    set_eq_updateNode _ j parent _ (by rw [hids1]; exact hids) hj1
  rw [hset2, hset1]
  rw [updateNode_eq_map, updateNode_eq_map, List.map_map]
  have hshape : ∀ n ∈ nodes,
      (((fun n0 : SubtaskNode =>
          if n0.id = parent.id then { parent with children := parent.children ++ [node.id] }
          else n0) ∘
        (fun n0 : SubtaskNode =>
          if n0.id = node.id then { node with dependencies := node.dependencies ++ [parent.id] }
          else n0)) n).id = n.id ∧
      (((fun n0 : SubtaskNode =>
          if n0.id = parent.id then { parent with children := parent.children ++ [node.id] }
          else n0) ∘
        (fun n0 : SubtaskNode =>
          if n0.id = node.id then { node with dependencies := node.dependencies ++ [parent.id] }
          else n0)) n).dependencies =
        (if n.id = node.id then node.dependencies ++ [parent.id] else n.dependencies) ∧
      (((fun n0 : SubtaskNode =>
          if n0.id = parent.id then { parent with children := parent.children ++ [node.id] }
          else n0) ∘
        (fun n0 : SubtaskNode =>
          if n0.id = node.id then { node with dependencies := node.dependencies ++ [parent.id] }
          else n0)) n).children =
        (if n.id = parent.id then parent.children ++ [node.id] else n.children) := by
    intro n hn
    by_cases h1 : n.id = node.id
    · have hn1 : n = node := id_inj hids hn hnmem h1
      subst hn1
      refine ⟨?_, ?_, ?_⟩ <;> simp [Function.comp, hne]
    · by_cases h2 : n.id = parent.id
      · have hn2 : n = parent := id_inj hids hn hpmem h2
        subst hn2
        refine ⟨?_, ?_, ?_⟩ <;> simp [Function.comp, h1]
      · refine ⟨?_, ?_, ?_⟩ <;> simp [Function.comp, h1, h2]
  have hids2 : nodeIds (nodes.map
      ((fun n0 : SubtaskNode =>
          if n0.id = parent.id then { parent with children := parent.children ++ [node.id] }
          else n0) ∘
        (fun n0 : SubtaskNode =>
          if n0.id = node.id then { node with dependencies := node.dependencies ++ [parent.id] }
          else n0))) = nodeIds nodes := by
    rw [nodeIds, List.map_map, nodeIds]
    exact List.map_congr_left (fun n hn => (hshape n hn).1)
  refine ⟨⟨by rw [hids2]; exact hids, ?_, ?_, ?_, ?_, ?_, ?_⟩, hids2⟩
  · intro m hm
    obtain ⟨n, hn, he⟩ := List.mem_map.mp hm
    subst he
    rw [(hshape n hn).2.1]
    split_ifs
    · rw [List.nodup_append]
      exact ⟨hdnd node hnmem, List.nodup_singleton _,
        fun x hx hx2 => hguard (by rw [← List.mem_singleton.mp hx2]; exact hx)⟩
    · exact hdnd n hn
  · intro m hm
    obtain ⟨n, hn, he⟩ := List.mem_map.mp hm
    subst he
    rw [(hshape n hn).2.2]
    split_ifs
    · rw [List.nodup_append]
      exact ⟨hcnd parent hpmem, List.nodup_singleton _,
        fun x hx hx2 => hnchild (by rw [← List.mem_singleton.mp hx2]; exact hx)⟩
    · exact hcnd n hn
  · intro m hm d hd
    obtain ⟨n, hn, he⟩ := List.mem_map.mp hm
    subst he
    rw [hids2]
    rw [(hshape n hn).2.1] at hd
    split_ifs at hd
    · rcases List.mem_append.mp hd with h3 | h3
      · exact hdval node hnmem d h3
      · rw [List.mem_singleton.mp h3]
        exact List.mem_map.mpr ⟨parent, hpmem, rfl⟩
    · exact hdval n hn d hd
  · intro m hm d hd
    obtain ⟨n, hn, he⟩ := List.mem_map.mp hm
    subst he
    rw [hids2]
    rw [(hshape n hn).2.2] at hd
    split_ifs at hd
    · rcases List.mem_append.mp hd with h3 | h3
      · exact hcval parent hpmem d h3
      · rw [List.mem_singleton.mp h3]
        exact List.mem_map.mpr ⟨node, hnmem, rfl⟩
    · exact hcval n hn d hd
  · intro m hm hdm
    obtain ⟨n, hn, he⟩ := List.mem_map.mp hm
    subst he
    rw [(hshape n hn).1, (hshape n hn).2.1] at hdm
    split_ifs at hdm with h1
    · rcases List.mem_append.mp hdm with h3 | h3
      · rw [h1] at h3
        exact hself node hnmem h3
      · rw [h1] at h3
        exact hne (List.mem_singleton.mp h3)
    · exact hself n hn hdm
  · intro m1 hm1 m2 hm2
    obtain ⟨n1, hn1, he1⟩ := List.mem_map.mp hm1
    obtain ⟨n2, hn2, he2⟩ := List.mem_map.mp hm2
    subst he1
    subst he2
    rw [(hshape n1 hn1).1, (hshape n2 hn2).1, (hshape n1 hn1).2.1, (hshape n2 hn2).2.2]
    have horig := hsym n1 hn1 n2 hn2
    by_cases h1 : n1.id = node.id
    · have hn1n : n1 = node := id_inj hids hn1 hnmem h1
      rw [if_pos h1]
      by_cases h2 : n2.id = parent.id
      · rw [if_pos h2]
        exact iff_of_true (List.mem_append.mpr (Or.inr (by simp [h2])))
          (List.mem_append.mpr (Or.inr (by simp [h1])))
      · rw [if_neg h2, ← hn1n]
        constructor
        · intro hmm
          rcases List.mem_append.mp hmm with h3 | h3
          · exact horig.mp h3
          · exact absurd (List.mem_singleton.mp h3) h2
        · intro hmm
          exact List.mem_append.mpr (Or.inl (horig.mpr hmm))
    · rw [if_neg h1]
      by_cases h2 : n2.id = parent.id
      · have hn2p : n2 = parent := id_inj hids hn2 hpmem h2
        rw [if_pos h2, ← hn2p]
        constructor
        · intro hmm
          exact List.mem_append.mpr (Or.inl (horig.mp hmm))
        · intro hmm
          rcases List.mem_append.mp hmm with h3 | h3
          · exact horig.mpr h3
          · exact absurd (List.mem_singleton.mp h3) h1
      · rw [if_neg h2]
        exact horig

/-- One `(i, j)` step of `_infer_dependencies` preserves well-formedness and
the id set (the outer loops only call it with `i ≠ j`). -/
theorem inferPair_wf {nodes : List SubtaskNode} (hwf : NodesWF nodes)
    (i j : ℕ) (hij : i ≠ j) :
    NodesWF (inferPair nodes i j) ∧ nodeIds (inferPair nodes i j) = nodeIds nodes := by
  rw [inferPair]
  cases hi : nodes[i]? with
  | none => exact ⟨hwf, rfl⟩
  | some node =>
    cases hj : nodes[j]? with
    | none => exact ⟨hwf, rfl⟩
    | some parent =>
      dsimp only
      split_ifs with h1 h2 h3 h4
      · exact ⟨hwf, rfl⟩
      · exact addEdge_wf hwf hi hj hij h2
      · exact ⟨hwf, rfl⟩
      · exact addEdge_wf hwf hi hj hij h4
      · exact ⟨hwf, rfl⟩

theorem foldl_inv {α β : Type} (P : β → Prop) (f : β → α → β) :
    ∀ (l : List α) (init : β), P init → (∀ b a, P b → P (f b a)) → P (l.foldl f init) := by
  intro l
  induction l with
  | nil => intro init h _; exact h
  | cons x xs ih =>
    intro init h hstep
    rw [List.foldl_cons]
    exact ih (f init x) (hstep init x h) hstep

/-- `_infer_dependencies` preserves well-formedness and the id set. -/
theorem inferDependencies_wf {nodes : List SubtaskNode} (hwf : NodesWF nodes) :
    NodesWF (inferDependencies nodes) ∧
      nodeIds (inferDependencies nodes) = nodeIds nodes := by
  rw [inferDependencies]
  refine foldl_inv (fun ns => NodesWF ns ∧ nodeIds ns = nodeIds nodes) _ _ nodes
    ⟨hwf, rfl⟩ ?_
  intro b i hb
  refine foldl_inv (fun ns => NodesWF ns ∧ nodeIds ns = nodeIds nodes) _ _ b hb ?_
  intro b2 j hb2
  by_cases he : i = j
  · rw [if_pos he]
    exact hb2
  · rw [if_neg he]
    obtain ⟨hw2, hid2⟩ := inferPair_wf hb2.1 i j he
    exact ⟨hw2, by rw [hid2, hb2.2]⟩

/-- A freshly built node map (distinct ids, no edges) is well-formed. -/
theorem freshWF {nodes : List SubtaskNode} (hids : (nodeIds nodes).Nodup)
    (hfresh : ∀ n ∈ nodes, n.dependencies = [] ∧ n.children = []) : NodesWF nodes := by
  refine ⟨hids, ?_, ?_, ?_, ?_, ?_, ?_⟩
  · intro n hn
    rw [(hfresh n hn).1]
    exact List.nodup_nil
  · intro n hn
    rw [(hfresh n hn).2]
    exact List.nodup_nil
  · intro n hn d hd
    rw [(hfresh n hn).1] at hd
    cases hd
  · intro n hn d hd
    rw [(hfresh n hn).2] at hd
    cases hd
  · intro n hn hd
    rw [(hfresh n hn).1] at hd
    cases hd
  · intro n hn m hm
    rw [(hfresh n hn).1, (hfresh m hm).2]
    simp

/-- C4: for every well-formed node map — arbitrary inferred
dependencies/children edges included — `_topological_sort` never raises and
always returns a total order: a permutation of the node ids, even when the
edge set is cyclic. -/
theorem claim_C4 (nodes : List SubtaskNode) (hwf : NodesWF nodes) :
    ∃ ns order, topological_sort nodes = .ok (ns, order) ∧
      List.Perm order (nodeIds nodes) := by
  obtain ⟨ns, order, h, _, _, hperm, _⟩ := topological_sort_spec hwf
  exact ⟨ns, order, h, hperm⟩

def exC4_workflow : Workflow :=
  { workflow_id := "w"
    title := "W"
    description := ""
    task_type := "general"
    download_cost := 0
    execution_cost := 0 }

/-- A two-cycle `A ↔ B`, consistent in both edge encodings. -/
def exC4_nodes : List SubtaskNode :=
  [ { id := "A"
      description := ""
      workflow := exC4_workflow
      dependencies := ["B"]
      children := ["B"]
      weight := 1
      confidence_score := 0 },
    { id := "B"
      description := ""
      workflow := exC4_workflow
      dependencies := ["A"]
      children := ["A"]
      weight := 1
      confidence_score := 0 } ]

theorem claim_C4_witness :
    ∃ ns order, topological_sort exC4_nodes = .ok (ns, order) ∧
      List.Perm order (nodeIds exC4_nodes) :=
  claim_C4 exC4_nodes (by unfold NodesWF; decide)

/-- The node-building step of `_create_dag_from_composite`, named so the fold
lemmas below share one definition (see `createDagFromComposite_eq`). -/
def compositeStep (sp : SearchPlan) (acc : List SubtaskNode) (pr : ℕ × ℕ) :
    Except String (List SubtaskNode) := do
  let subtask ← listGetE sp.subtasks pr.1
  let workflow ← listGetE sp.workflows pr.2
  let subtask_id := "subtask_" ++ toString pr.1
  let node : SubtaskNode :=
    { id := subtask_id
      description := subtask.text
      workflow := workflow
      weight := subtask.weight
      confidence_score := workflow.similarity_score }
  pure (acc ++ [node])

theorem createDagFromComposite_eq (sp : SearchPlan) :
    createDagFromComposite sp =
      (if sp.subtasks.isEmpty || sp.subtask_workflow_mapping.isEmpty then .ok none
      else do
        let nodes ← sp.subtask_workflow_mapping.foldlM (compositeStep sp)
          ([] : List SubtaskNode)
        let nodes := inferDependencies nodes
        let r ← topological_sort nodes
        let ns := r.1
        let root_ids := (ns.filter (fun n => n.dependencies.isEmpty)).map (fun n => n.id)
        let coverage := if sp.coverage = "" then
            toString ns.length ++ "/" ++ toString sp.subtasks.length
          else sp.coverage
        Except.ok (some
          { nodes := ns
            root_ids := root_ids
            execution_order := r.2
            total_download_cost := dedupDownloadCost ns
            total_execution_cost := totalExecutionCost ns
            coverage := coverage
            overall_confidence := overallConfidence ns })) := rfl

/-- The composite node-building fold only appends edge-free nodes. -/
theorem compositeFold_fresh (sp : SearchPlan) :
    ∀ (l : List (ℕ × ℕ)) (acc ns : List SubtaskNode),
      (∀ n ∈ acc, n.dependencies = [] ∧ n.children = []) →
      l.foldlM (compositeStep sp) acc = .ok ns →
      ∀ n ∈ ns, n.dependencies = [] ∧ n.children = [] := by
  intro l
  induction l with
  | nil =>
    intro acc ns hacc h
    obtain rfl : acc = ns := by simpa [pure, Except.pure] using h
    exact hacc
  | cons pr l ih =>
    intro acc ns hacc h
    rw [List.foldlM_cons] at h
    cases hstep : compositeStep sp acc pr with
    | error e =>
      rw [hstep] at h
      exact absurd h (by simp [bind, Except.bind])
    | ok acc2 =>
      rw [hstep] at h
      simp only [bind, Except.bind] at h
      refine ih acc2 ns ?_ h
      rw [compositeStep] at hstep
      cases h1 : listGetE sp.subtasks pr.1 with
      | error e =>
        rw [h1] at hstep
        simp [bind, Except.bind] at hstep
      | ok st =>
        rw [h1] at hstep
        cases h2 : listGetE sp.workflows pr.2 with
        | error e =>
          rw [h2] at hstep
          simp [bind, Except.bind] at hstep
        | ok wf =>
          rw [h2] at hstep
          simp only [bind, Except.bind, pure, Except.pure] at hstep
          obtain rfl := Except.ok.inj hstep
          intro n hn
          rcases List.mem_append.mp hn with h3 | h3
          · exact hacc n h3
          · rw [List.mem_singleton.mp h3]
            exact ⟨rfl, rfl⟩

/-- The ids produced by the composite node-building fold. -/
theorem compositeFold_ids (sp : SearchPlan) :
    ∀ (l : List (ℕ × ℕ)) (acc ns : List SubtaskNode),
      l.foldlM (compositeStep sp) acc = .ok ns →
      nodeIds ns = nodeIds acc ++ l.map (fun pr => "subtask_" ++ toString pr.1) := by
  intro l
  induction l with
  | nil =>
    intro acc ns h
    obtain rfl : acc = ns := by simpa [pure, Except.pure] using h
    simp
  | cons pr l ih =>
    intro acc ns h
    rw [List.foldlM_cons] at h
    cases hstep : compositeStep sp acc pr with
    | error e =>
      rw [hstep] at h
      exact absurd h (by simp [bind, Except.bind])
    | ok acc2 =>
      rw [hstep] at h
      simp only [bind, Except.bind] at h
      rw [compositeStep] at hstep
      cases h1 : listGetE sp.subtasks pr.1 with
      | error e =>
        rw [h1] at hstep
        simp [bind, Except.bind] at hstep
      | ok st =>
        rw [h1] at hstep
        cases h2 : listGetE sp.workflows pr.2 with
        | error e =>
          rw [h2] at hstep
          simp [bind, Except.bind] at hstep
        | ok wf =>
          rw [h2] at hstep
          simp only [bind, Except.bind, pure, Except.pure] at hstep
          obtain rfl := Except.ok.inj hstep
          rw [ih _ ns h, nodeIds, List.map_append, List.map_cons]
          simp [nodeIds]

/-- Every DAG returned by `recompose` (under distinct fresh node ids, which
Python's id-keyed dicts guarantee) carries a well-formed node map, and its
execution order either respects every remaining edge or is the pure
descending-weight fallback. -/
theorem recompose_dag_spec (cos : String → List ℚ → ℚ) (subtasks : List Subtask)
    (sp : SearchPlan) (k : ℕ) (dags : List ExecutionDAG) (dag : ExecutionDAG)
    (hok : recompose cos subtasks sp k = .ok dags) (hmem : dag ∈ dags)
    (hids1 : (sp.subtask_workflow_mapping.map (fun pr => "subtask_" ++ toString pr.1)).Nodup)
    (hids2 : ((matchSubtasksToWorkflowsFromPool cos subtasks sp.workflows).map
        (fun tr => "subtask_" ++ toString tr.1)).Nodup) :
    NodesWF dag.nodes ∧
      ((∀ n ∈ dag.nodes, ∀ u ∈ n.dependencies,
          dag.execution_order.indexOf u < dag.execution_order.indexOf n.id) ∨
        dag.execution_order = sortDesc (nodeWeight dag.nodes) (nodeIds dag.nodes)) := by
  rcases mem_recompose cos subtasks sp k dags dag hok hmem with h | h | h | h
  · -- composite builder
    rw [createDagFromComposite_eq] at h
    by_cases hemp : (sp.subtasks.isEmpty || sp.subtask_workflow_mapping.isEmpty) = true
    · rw [if_pos hemp] at h
      simp at h
    · rw [if_neg hemp] at h
      cases hf : sp.subtask_workflow_mapping.foldlM (compositeStep sp)
        ([] : List SubtaskNode) with
      | error e =>
        rw [hf] at h
        simp [bind, Except.bind] at h
      | ok ns0 =>
        rw [hf] at h
        simp only [bind, Except.bind] at h
        have hfresh := compositeFold_fresh sp _ _ _ (by intro n hn; cases hn) hf
        have hidseq := compositeFold_ids sp _ _ _ hf
        have hwf0 : NodesWF ns0 := by
          refine freshWF ?_ hfresh
          rw [hidseq]
          simpa [nodeIds] using hids1
        obtain ⟨hwf1, _⟩ := inferDependencies_wf hwf0
        obtain ⟨ns, order, hts, hwfns, hidns, hperm, hdisj⟩ := topological_sort_spec hwf1
        rw [hts] at h
        simp only [bind, Except.bind, Except.ok.injEq, Option.some.injEq] at h
        subst h
        exact ⟨hwfns, hdisj⟩
  · -- single-workflow builder
    rw [createSingleWorkflowDagFromPlan] at h
    cases hws : sp.workflows with
    | nil =>
      rw [hws] at h
      cases h
    | cons best rest =>
      rw [hws] at h
      dsimp only at h
      obtain h2 := Option.some.inj h
      subst h2
      refine ⟨freshWF (by simp [nodeIds]) ?_, Or.inl ?_⟩
      · intro n hn
        rw [List.mem_singleton] at hn
        subst hn
        exact ⟨rfl, rfl⟩
      · intro n hn u hu
        rw [List.mem_singleton] at hn
        subst hn
        cases hu
  · -- multi-workflow builder
    rw [createMultiWorkflowDagFromPlan] at h
    dsimp only at h
    by_cases hemp : (matchSubtasksToWorkflowsFromPool cos subtasks sp.workflows).isEmpty = true
    · rw [if_pos hemp] at h
      simp [pure, Except.pure] at h
    · rw [if_neg hemp] at h
      have hfresh : ∀ n ∈ (matchSubtasksToWorkflowsFromPool cos subtasks sp.workflows).map
          (fun tr => ({ id := "subtask_" ++ toString tr.1, description := tr.2.1.text, workflow := tr.2.2, weight := tr.2.1.weight, confidence_score := tr.2.2.similarity_score } : SubtaskNode)),
          n.dependencies = [] ∧ n.children = [] := by
        intro n hn
        obtain ⟨tr, _, rfl⟩ := List.mem_map.mp hn
        exact ⟨rfl, rfl⟩
      have hids0 : nodeIds ((matchSubtasksToWorkflowsFromPool cos subtasks sp.workflows).map
          (fun tr => ({ id := "subtask_" ++ toString tr.1, description := tr.2.1.text, workflow := tr.2.2, weight := tr.2.1.weight, confidence_score := tr.2.2.similarity_score } : SubtaskNode))) =
          (matchSubtasksToWorkflowsFromPool cos subtasks sp.workflows).map
            (fun tr => "subtask_" ++ toString tr.1) := by
        rw [nodeIds, List.map_map]
        exact List.map_congr_left (fun tr _ => rfl)
      have hwf0 : NodesWF ((matchSubtasksToWorkflowsFromPool cos subtasks sp.workflows).map
          (fun tr => ({ id := "subtask_" ++ toString tr.1, description := tr.2.1.text, workflow := tr.2.2, weight := tr.2.1.weight, confidence_score := tr.2.2.similarity_score } : SubtaskNode))) := by
        refine freshWF ?_ hfresh
        rw [hids0]
        exact hids2
      obtain ⟨hwf1, _⟩ := inferDependencies_wf hwf0
      obtain ⟨ns, order, hts, hwfns, hidns, hperm, hdisj⟩ := topological_sort_spec hwf1
      rw [hts] at h
      simp only [bind, Except.bind, Except.ok.injEq, Option.some.injEq] at h
      subst h
      exact ⟨hwfns, hdisj⟩
  · -- variant builder
    obtain ⟨i, hv⟩ := h
    rw [createVariantDagFromPlan] at hv
    split_ifs at hv with hlen
    dsimp only at hv
    obtain h2 := Option.some.inj hv
    subst h2
    refine ⟨freshWF (by simp [nodeIds]) ?_, Or.inl ?_⟩
    · intro n hn
      rw [List.mem_singleton] at hn
      subst hn
      exact ⟨rfl, rfl⟩
    · intro n hn u hu
      rw [List.mem_singleton] at hn
      subst hn
      cases hu

/-- C1 (amended): every `ExecutionDAG` returned by `recompose` (with the
builders' fresh node ids distinct, as Python's id-keyed dicts guarantee)
either respects every remaining edge in its `execution_order`, or — when the
cycles survive the five weakest-edge removals — carries the pure
descending-weight fallback order, which may violate remaining edges. -/
theorem claim_C1 (cos : String → List ℚ → ℚ) (subtasks : List Subtask)
    (sp : SearchPlan) (k : ℕ) (dags : List ExecutionDAG) (dag : ExecutionDAG)
    (hok : recompose cos subtasks sp k = .ok dags) (hmem : dag ∈ dags)
    (hids1 : (sp.subtask_workflow_mapping.map (fun pr => "subtask_" ++ toString pr.1)).Nodup)
    (hids2 : ((matchSubtasksToWorkflowsFromPool cos subtasks sp.workflows).map
        (fun tr => "subtask_" ++ toString tr.1)).Nodup) :
    respectsAllEdges dag = true ∨
      dag.execution_order = sortDesc (nodeWeight dag.nodes) (nodeIds dag.nodes) := by
  rcases (recompose_dag_spec cos subtasks sp k dags dag hok hmem hids1 hids2).2 with h | h
  · left
    rw [respectsAllEdges]
    simp only [List.all_eq_true, decide_eq_true_eq]
    exact h
  · right
    exact h

/-- C10: every `ExecutionDAG` returned by `recompose` (with the builders'
fresh node ids distinct) keeps its two edge encodings mutually consistent:
`u.id ∈ v.dependencies ↔ v.id ∈ u.children` for all nodes `u`, `v` — the
symmetry survives dependency inference and every weakest-edge removal of the
repair loop (whose edge-clearing fallback is unreachable from such states). -/
theorem claim_C10 (cos : String → List ℚ → ℚ) (subtasks : List Subtask)
    (sp : SearchPlan) (k : ℕ) (dags : List ExecutionDAG) (dag : ExecutionDAG)
    (hok : recompose cos subtasks sp k = .ok dags) (hmem : dag ∈ dags)
    (hids1 : (sp.subtask_workflow_mapping.map (fun pr => "subtask_" ++ toString pr.1)).Nodup)
    (hids2 : ((matchSubtasksToWorkflowsFromPool cos subtasks sp.workflows).map
        (fun tr => "subtask_" ++ toString tr.1)).Nodup) :
    ∀ u ∈ dag.nodes, ∀ v ∈ dag.nodes, (u.id ∈ v.dependencies ↔ v.id ∈ u.children) := by
  have hwf := (recompose_dag_spec cos subtasks sp k dags dag hok hmem hids1 hids2).1
  intro u hu v hv
  exact hwf.2.2.2.2.2.2 v hv u hu

end WorkflowRecomposer

/-- Concrete plan exercising `recompose` for the C1/C10 witnesses. -/
def exCW_plan : SearchPlan :=
  { plan_type := "direct"
    workflows := [WorkflowRecomposer.exC4_workflow]
    overall_score := 0 }

def exCW_dags : List ExecutionDAG :=
  (WorkflowRecomposer.recompose (fun _ _ => 0) [] exCW_plan 3).toOption.getD []

def exCW_dag : ExecutionDAG := exCW_dags.headD default

theorem claim_C1_witness :
    respectsAllEdges exCW_dag = true ∨
      exCW_dag.execution_order = sortDesc (WorkflowRecomposer.nodeWeight exCW_dag.nodes)
        (WorkflowRecomposer.nodeIds exCW_dag.nodes) :=
  WorkflowRecomposer.claim_C1 (fun _ _ => 0) [] exCW_plan 3 exCW_dags exCW_dag
    (by decide) (by decide) (by decide) (by decide)

theorem claim_C10_witness :
    (exCW_dag.nodes.all (fun u => exCW_dag.nodes.all
      (fun v => decide (u.id ∈ v.dependencies ↔ v.id ∈ u.children)))) = true := by
  have h := WorkflowRecomposer.claim_C10 (fun _ _ => 0) [] exCW_plan 3 exCW_dags exCW_dag
    (by decide) (by decide) (by decide) (by decide)
  simp only [List.all_eq_true, decide_eq_true_eq]
  exact h
